import Mathlib

/-!
Verification of the parallel Faiss index builder
(`tools/retrieval/index/faiss_par_add/__init__.py`).

The development shallowly embeds the pure address scheme
(`get_num_rows`, `get_num_cols`, `get_partial_index_path_map`), the
missing-work detector (`get_missing_index_paths`), and the file-system
effects of `encode_partial`, `merge_partial` and the scheduling loop of
`add`.  File paths are modelled as their character lists; the file system
is a finite set of paths; `numpy` floating-point `ceil(log ...)`
expressions are modelled by their exact integer values; the ambient
`torch.distributed` rank and world size are passed explicitly.
-/

/-- Fuel-based ceiling logarithm base 2.  `clog2Aux n n` models the source's
`int(np.ceil(np.log(n) / np.log(2)))` (exact value of `⌈log₂ n⌉`). -/
def clog2Aux : Nat → Nat → Nat
  | 0, _ => 0
  | fuel+1, n => if n ≤ 1 then 0 else clog2Aux fuel ((n + 1) / 2) + 1

/-- Fuel-based ceiling logarithm base 10.  `clog10Aux n n` models the source's
`int(np.ceil(np.log(n) / np.log(10)))` (exact value of `⌈log₁₀ n⌉`). -/
def clog10Aux : Nat → Nat → Nat
  | 0, _ => 0
  | fuel+1, n => if n ≤ 1 then 0 else clog10Aux fuel ((n + 9) / 10) + 1

theorem clog2Aux_eq : ∀ fuel n, n ≤ fuel → clog2Aux fuel n = Nat.clog 2 n := by
  intro fuel
  induction fuel with
  | zero =>
    intro n hn
    interval_cases n
    simp [clog2Aux, Nat.clog_of_right_le_one]
  | succ fuel ih =>
    intro n hn
    by_cases h1 : n ≤ 1
    · simp [clog2Aux, h1, Nat.clog_of_right_le_one h1]
    · have h2 : 2 ≤ n := by omega
      have hrec := @Nat.clog_of_two_le 2 n (by norm_num) h2
      have harg : (n + 2 - 1) / 2 = (n + 1) / 2 := by norm_num
      rw [harg] at hrec
      have hle : (n + 1) / 2 ≤ fuel := by omega
      simp only [clog2Aux, if_neg h1, ih _ hle, hrec]

theorem clog10Aux_eq : ∀ fuel n, n ≤ fuel → clog10Aux fuel n = Nat.clog 10 n := by
  intro fuel
  induction fuel with
  | zero =>
    intro n hn
    interval_cases n
    simp [clog10Aux, Nat.clog_of_right_le_one]
  | succ fuel ih =>
    intro n hn
    by_cases h1 : n ≤ 1
    · simp [clog10Aux, h1, Nat.clog_of_right_le_one h1]
    · have h2 : 2 ≤ n := by omega
      have hrec := @Nat.clog_of_two_le 10 n (by norm_num) h2
      have harg : (n + 10 - 1) / 10 = (n + 9) / 10 := by norm_num
      rw [harg] at hrec
      have hle : (n + 9) / 10 ≤ fuel := by omega
      simp only [clog10Aux, if_neg h1, ih _ hle, hrec]

/-- Fuel-based little-endian base-10 digit list, agreeing with
`Nat.digits 10` when run with enough fuel. -/
def digitsLEAux : Nat → Nat → List Nat
  | 0, _ => []
  | fuel+1, n => if n = 0 then [] else n % 10 :: digitsLEAux fuel (n / 10)

theorem digitsLEAux_eq : ∀ fuel n, n ≤ fuel → digitsLEAux fuel n = Nat.digits 10 n := by
  intro fuel
  induction fuel with
  | zero =>
    intro n hn
    interval_cases n
    simp [digitsLEAux]
  | succ fuel ih =>
    intro n hn
    by_cases h0 : n = 0
    · simp [digitsLEAux, h0]
    · have hpos : 0 < n := Nat.pos_of_ne_zero h0
      have hrec := @Nat.digits_def' 10 (by norm_num) n hpos
      have hle : n / 10 ≤ fuel := by omega
      simp only [digitsLEAux, if_neg h0, ih _ hle, hrec]

/-- Model of Python's `str(n)` for a natural number: the decimal digit
characters, most significant first. -/
def natStr (n : Nat) : List Char :=
  if n = 0 then ['0'] else ((digitsLEAux n n).map Nat.digitChar).reverse

/-- Model of Python's `str(n).zfill(len)`: left-pad the decimal string with
`'0'` up to length `len`. -/
def zfill (len n : Nat) : List Char :=
  List.replicate (len - (natStr n).length) '0' ++ natStr n

theorem natStr_eq_digits {n : Nat} (hn : n ≠ 0) :
    natStr n = ((Nat.digits 10 n).map Nat.digitChar).reverse := by
  simp [natStr, hn, digitsLEAux_eq n n (le_refl n)]

theorem digitChar_inj_lt :
    ∀ a, a < 10 → ∀ b, b < 10 → Nat.digitChar a = Nat.digitChar b → a = b := by
  decide

theorem digitChar_ne_zero_char :
    ∀ a, a < 10 → a ≠ 0 → Nat.digitChar a ≠ '0' := by
  decide

theorem map_digitChar_inj :
    ∀ l1 l2 : List Nat, (∀ x ∈ l1, x < 10) → (∀ x ∈ l2, x < 10) →
      l1.map Nat.digitChar = l2.map Nat.digitChar → l1 = l2 := by
  intro l1
  induction l1 with
  | nil =>
    intro l2 _ _ h
    cases l2 with
    | nil => rfl
    | cons b bs => simp at h
  | cons a as ih =>
    intro l2 h1 h2 h
    cases l2 with
    | nil => simp at h
    | cons b bs =>
      simp only [List.map_cons, List.cons.injEq] at h
      have ha : a = b :=
        digitChar_inj_lt a (h1 a (by simp)) b (h2 b (by simp)) h.1
      have has : as = bs :=
        ih bs (fun x hx => h1 x (by simp [hx])) (fun x hx => h2 x (by simp [hx])) h.2
      rw [ha, has]

theorem natStr_inj {m n : Nat} (h : natStr m = natStr n) : m = n := by
  by_cases hm : m = 0 <;> by_cases hn : n = 0
  · omega
  · exfalso
    rw [natStr_eq_digits hn] at h
    simp only [natStr, if_pos hm] at h
    have hlen : (((Nat.digits 10 n).map Nat.digitChar).reverse).length = 1 := by
      rw [← h]; rfl
    simp only [List.length_reverse, List.length_map] at hlen
    obtain ⟨d, hd⟩ : ∃ d, Nat.digits 10 n = [d] := by
      cases hds : Nat.digits 10 n with
      | nil => rw [hds] at hlen; simp at hlen
      | cons x xs =>
        rw [hds] at hlen
        simp at hlen
        exact ⟨x, by rw [hlen]⟩
    rw [hd] at h
    simp at h
    have hd10 : d < 10 := Nat.digits_lt_base (by norm_num) (by rw [hd]; simp)
    have hd0 : d = 0 := digitChar_inj_lt d hd10 0 (by norm_num) h.symm
    have h2 := Nat.ofDigits_digits 10 n
    rw [hd] at h2
    simp [Nat.ofDigits, hd0] at h2
    exact hn h2.symm
  · exfalso
    rw [natStr_eq_digits hm] at h
    simp only [natStr, if_pos hn] at h
    have hlen : (((Nat.digits 10 m).map Nat.digitChar).reverse).length = 1 := by
      rw [h]; rfl
    simp only [List.length_reverse, List.length_map] at hlen
    obtain ⟨d, hd⟩ : ∃ d, Nat.digits 10 m = [d] := by
      cases hds : Nat.digits 10 m with
      | nil => rw [hds] at hlen; simp at hlen
      | cons x xs =>
        rw [hds] at hlen
        simp at hlen
        exact ⟨x, by rw [hlen]⟩
    rw [hd] at h
    simp at h
    have hd10 : d < 10 := Nat.digits_lt_base (by norm_num) (by rw [hd]; simp)
    have hd0 : d = 0 := digitChar_inj_lt d hd10 0 (by norm_num) h
    have h2 := Nat.ofDigits_digits 10 m
    rw [hd] at h2
    simp [Nat.ofDigits, hd0] at h2
    exact hm h2.symm
  · rw [natStr_eq_digits hm, natStr_eq_digits hn] at h
    have h' := List.reverse_injective h
    have hdig := map_digitChar_inj (Nat.digits 10 m) (Nat.digits 10 n)
      (fun x hx => Nat.digits_lt_base (by norm_num) hx)
      (fun x hx => Nat.digits_lt_base (by norm_num) hx) h'
    calc m = Nat.ofDigits 10 (Nat.digits 10 m) := (Nat.ofDigits_digits 10 m).symm
    _ = Nat.ofDigits 10 (Nat.digits 10 n) := by rw [hdig]
    _ = n := Nat.ofDigits_digits 10 n

theorem natStr_head_ne_zero {n : Nat} (hn : n ≠ 0) :
    ∃ c cs, natStr n = c :: cs ∧ c ≠ '0' := by
  have hne : Nat.digits 10 n ≠ [] := Nat.digits_ne_nil_iff_ne_zero.mpr hn
  obtain ⟨l, a, hla⟩ : ∃ l a, Nat.digits 10 n = l ++ [a] :=
    ⟨(Nat.digits 10 n).dropLast, (Nat.digits 10 n).getLast hne,
      (List.dropLast_append_getLast hne).symm⟩
  have ha10 : a < 10 := Nat.digits_lt_base (by norm_num) (by rw [hla]; simp)
  have hane : a ≠ 0 := by
    have hgl := Nat.getLast_digit_ne_zero 10 hn
    have h1 := List.getLast?_eq_getLast (Nat.digits 10 n) hne
    have h2 : (Nat.digits 10 n).getLast? = some a := by
      rw [hla]; exact List.getLast?_concat _
    rw [h1] at h2
    rw [← Option.some_inj.mp h2]
    exact hgl
  refine ⟨Nat.digitChar a, (l.map Nat.digitChar).reverse, ?_, ?_⟩
  · rw [natStr_eq_digits hn, hla]
    simp
  · exact digitChar_ne_zero_char _ ha10 hane

theorem dropWhile_zero_replicate (k : Nat) (l : List Char) :
    List.dropWhile (fun c => c == '0') (List.replicate k '0' ++ l) =
      List.dropWhile (fun c => c == '0') l := by
  induction k with
  | zero => simp
  | succ k ih => simpa [List.replicate_succ] using ih

theorem dropWhile_zero_natStr (n : Nat) :
    List.dropWhile (fun c => c == '0') (natStr n) =
      if n = 0 then [] else natStr n := by
  by_cases hn : n = 0
  · subst hn; simp [natStr]
  · obtain ⟨c, cs, hcons, hne⟩ := natStr_head_ne_zero hn
    rw [hcons]
    simp only [List.dropWhile_cons]
    have : (c == '0') = false := by
      simp [hne]
    simp [this, hn]

theorem zfill_inj {L m n : Nat} (h : zfill L m = zfill L n) : m = n := by
  unfold zfill at h
  have hm := congrArg (List.dropWhile (fun c => c == '0')) h
  rw [dropWhile_zero_replicate, dropWhile_zero_replicate,
    dropWhile_zero_natStr, dropWhile_zero_natStr] at hm
  by_cases h0m : m = 0 <;> by_cases h0n : n = 0
  · omega
  · exfalso
    rw [if_pos h0m, if_neg h0n] at hm
    obtain ⟨c, cs, hcons, _⟩ := natStr_head_ne_zero h0n
    rw [hcons] at hm
    exact List.cons_ne_nil _ _ hm.symm
  · exfalso
    rw [if_neg h0m, if_pos h0n] at hm
    obtain ⟨c, cs, hcons, _⟩ := natStr_head_ne_zero h0m
    rw [hcons] at hm
    exact List.cons_ne_nil _ _ hm
  · rw [if_neg h0m, if_neg h0n] at hm
    exact natStr_inj hm

theorem natStr_length_le {m nb : Nat} (hm : m ≤ nb) (hnb : 1 ≤ nb) :
    (natStr m).length ≤ Nat.clog 10 nb + 1 := by
  by_cases h0 : m = 0
  · subst h0; simp [natStr]
  · rw [natStr_eq_digits h0]
    simp only [List.length_reverse, List.length_map]
    rw [Nat.digits_len 10 m (by norm_num) h0]
    have h1 : Nat.log 10 m ≤ Nat.log 10 nb := Nat.log_mono_right hm
    have h2 : Nat.log 10 nb ≤ Nat.clog 10 nb := Nat.log_le_clog 10 nb
    omega

theorem zfill_length {L n : Nat} (h : (natStr n).length ≤ L) :
    (zfill L n).length = L := by
  unfold zfill
  simp [List.length_replicate]
  omega

/-! ## The address scheme (`FaissParallelAddIndex` class methods)

`num_batches` is `len(input_data_paths)`; the distributed `rank` and
`world_size` (read from `torch.distributed` in the source) are explicit
parameters, as §9 of the design prescribes for testability. -/

/-- Model of `get_num_rows`: `int(np.ceil(np.log(num_batches) / np.log(2))) + 1`. -/
def getNumRows (num_batches : Nat) : Nat :=
  clog2Aux num_batches num_batches + 1

/-- Model of `get_num_cols`: `int(np.ceil(num_batches / world_size / 2**row))`,
i.e. exact ceiling division of `num_batches` by `world_size * 2^row`. -/
def getNumCols (num_batches world_size row : Nat) : Nat :=
  (num_batches + world_size * 2 ^ row - 1) / (world_size * 2 ^ row)

/-- Model of `batch_str_len = int(np.ceil(np.log(num_batches) / np.log(10))) + 1`. -/
def batchStrLen (num_batches : Nat) : Nat :=
  clog10Aux num_batches num_batches + 1

/-- The first batch id of an assignment:
`batch_id_0 = 2**row * (rank + col * world_size)`. -/
def batchId0 (world_size row col rank : Nat) : Nat :=
  2 ^ row * (rank + col * world_size)

/-- Model of `batch_id_1`: equal to `batch_id_0` at row 0, otherwise
`batch_id_0 + batch_half_range - 1` with `batch_half_range = 2**row / 2`. -/
def batchId1 (row b0 : Nat) : Nat :=
  if row = 0 then b0 else b0 + 2 ^ row / 2 - 1

/-- Model of `batch_id_2`: equal to `batch_id_0` at row 0, otherwise `batch_id_1 + 1`. -/
def batchId2 (row b0 : Nat) : Nat :=
  if row = 0 then b0 else batchId1 row b0 + 1

/-- Model of `batch_id_3`: equal to `batch_id_0` at row 0, otherwise
`batch_id_2 + batch_half_range - 1`. -/
def batchId3 (row b0 : Nat) : Nat :=
  if row = 0 then b0 else batchId2 row b0 + 2 ^ row / 2 - 1

/-- Model of `get_batch_range(b0, b1)`: clamp `b1` to `num_batches - 1`; `None` when
`b0 >= num_batches`. -/
def getBatchRange (num_batches b0 b1 : Nat) : Option (Nat × Nat) :=
  let b1' := if num_batches ≤ b1 then num_batches - 1 else b1
  if num_batches ≤ b0 then none else some (b0, b1')

/-- The file name `"added_%s_%s-%s.faissindex" % (zf(b1-b0+1), zf(b0), zf(b1))`. -/
def indexName (num_batches a b : Nat) : List Char :=
  "added_".data ++ zfill (batchStrLen num_batches) (b - a + 1) ++
    "_".data ++ zfill (batchStrLen num_batches) a ++
    "-".data ++ zfill (batchStrLen num_batches) b ++ ".faissindex".data

/-- Model of `os.path.join(dir_path, name)` for a plain directory path and a relative
name: `dir_path + "/" + name`. -/
def indexPath (dir : List Char) (num_batches a b : Nat) : List Char :=
  dir ++ "/".data ++ indexName num_batches a b

/-- Model of `batch_range_to_index_path(_row, _range)`.  Exactly as in the source,
the `_row` argument is unused: the path depends only on the batch range. -/
def batchRangeToIndexPath (dir : List Char) (num_batches : Nat) (row : Nat)
    (range : Option (Nat × Nat)) : Option (List Char) :=
  match range with
  | none => none
  | some r => some (indexPath dir num_batches r.1 r.2)

/-- The inputs recorded in a path map: `input_data_path` (row 0) or
`input_index_paths` (row > 0). -/
inductive PathMapInputs where
  | data (input_data_path : List Char)
  | indexes (input_index_paths : List (List Char))
deriving DecidableEq

/-- The dictionary returned by `get_partial_index_path_map`.
`output_index_path` is an `Option` because the source stores the result of
`batch_range_to_index_path`, which can be `None` in principle. -/
structure PathMap where
  batch_id : Nat
  num_batches : Nat
  output_index_path : Option (List Char)
  inputs : PathMapInputs
deriving DecidableEq

/-- Model of `get_partial_index_path_map(input_data_paths, dir_path, row, col, rank)`. -/
def getPartialIndexPathMap (input_data_paths : List (List Char))
    (world_size : Nat) (dir : List Char) (row col rank : Nat) : Option PathMap :=
  let num_batches := input_data_paths.length
  let b0 := batchId0 world_size row col rank
  if num_batches ≤ b0 then none
  else
    let b1 := batchId1 row b0
    let b2 := batchId2 row b0
    let b3 := batchId3 row b0
    let input_batch_ranges :=
      [getBatchRange num_batches b0 b1, getBatchRange num_batches b2 b3]
    let output_batch_range := getBatchRange num_batches b0 b3
    let output_path := batchRangeToIndexPath dir num_batches row output_batch_range
    if row = 0 then
      some ⟨b0, num_batches, output_path,
        .data (input_data_paths.getD b0 [])⟩
    else
      let input_index_paths := input_batch_ranges.filterMap
        (batchRangeToIndexPath dir num_batches (row - 1))
      if input_index_paths = [] then none
      else some ⟨b0, num_batches, output_path, .indexes input_index_paths⟩

/-- The output batch range of the assignment at `(row, col, rank)` (the
source's `output_batch_range`, guarded by the same voidness test). -/
def outputBatchRange (num_batches world_size row col rank : Nat) :
    Option (Nat × Nat) :=
  let b0 := batchId0 world_size row col rank
  if num_batches ≤ b0 then none
  else getBatchRange num_batches b0 (batchId3 row b0)

/-- Model of `get_added_index_path(input_data_paths, dir_path)`: the output path of
the single node at the top row. -/
def getAddedIndexPath (input_data_paths : List (List Char))
    (world_size : Nat) (dir : List Char) : Option (List Char) :=
  (getPartialIndexPathMap input_data_paths world_size dir
      (getNumRows input_data_paths.length - 1) 0 0).bind
    (fun pm => pm.output_index_path)

/-! ## The missing-work detector and the executors

The file system is a finite set of paths; `os.path.isfile p` is `p ∈ fs`. -/

/-- The body of the triple loop of `get_missing_index_paths` for one
`(row, col, rank)`: add the top-row output if absent, then propagate
missing-ness to absent inputs of any output already marked missing. -/
def missingStep (input_data_paths : List (List Char)) (world_size : Nat)
    (dir : List Char) (fs : Finset (List Char)) (num_rows : Nat)
    (acc : Finset (List Char)) (row col rank : Nat) : Finset (List Char) :=
  match getPartialIndexPathMap input_data_paths world_size dir row col rank with
  | none => acc
  | some pm =>
    match pm.output_index_path with
    | none => acc
    | some output_path =>
      let input_paths := match pm.inputs with
        | .data _ => []
        | .indexes ps => ps
      let acc1 := if row = num_rows - 1 ∧ output_path ∉ fs
        then insert output_path acc else acc
      if output_path ∈ acc1 then
        acc1 ∪ (input_paths.filter (fun p => p ∉ fs)).toFinset
      else acc1

/-- Model of `get_missing_index_paths(input_data_paths, dir_path, timer, num_rows)`:
rows from `num_rows - 1` down to `0`, columns ascending, ranks ascending. -/
def getMissingIndexPaths (input_data_paths : List (List Char))
    (world_size : Nat) (dir : List Char) (fs : Finset (List Char))
    (num_rows : Nat) : Finset (List Char) :=
  ((List.range num_rows).reverse).foldl
    (fun acc row =>
      (List.range (getNumCols input_data_paths.length world_size row)).foldl
        (fun acc col =>
          (List.range world_size).foldl
            (fun acc rank =>
              missingStep input_data_paths world_size dir fs num_rows
                acc row col rank)
            acc)
        acc)
    ∅

/-- File-system effect of `encode_partial`: if the output file exists,
return; otherwise encode the batch and write the output file. -/
def encodePartialFS (pm : PathMap) (fs : Finset (List Char)) :
    Finset (List Char) :=
  match pm.output_index_path with
  | none => fs
  | some output_path =>
    if output_path ∈ fs then fs else insert output_path fs

/-- Result of running a merge step: the new file system, the failure of the
`assert len(input_index_paths) >= 2` guard, or an I/O error (reading or
removing a file that does not exist). -/
inductive MergeResult where
  | ok (fs : Finset (List Char))
  | assertFail
  | ioError
deriving DecidableEq

/-- Sequential `os.remove` over a list of paths; `none` when some path does
not exist at its removal time. -/
def removeAll : List (List Char) → Finset (List Char) → Option (Finset (List Char))
  | [], fs => some fs
  | p :: ps, fs => if p ∈ fs then removeAll ps (fs.erase p) else none

/-- File-system effect of `merge_partial`: if the output file is absent,
assert at least two inputs, read them all, write the output; afterwards
delete the input files whenever there are at least two of them. -/
def mergePartialFS (pm : PathMap) (fs : Finset (List Char)) : MergeResult :=
  match pm.output_index_path, pm.inputs with
  | some output_path, .indexes input_index_paths =>
    if output_path ∉ fs then
      if input_index_paths.length < 2 then .assertFail
      else if input_index_paths.all (fun p => p ∈ fs) then
        match removeAll input_index_paths (insert output_path fs) with
        | some fs' => .ok fs'
        | none => .ioError
      else .ioError
    else
      if 2 ≤ input_index_paths.length then
        match removeAll input_index_paths fs with
        | some fs' => .ok fs'
        | none => .ioError
      else .ok fs
  | _, _ => .ioError

/-- One `(row, col, rank)` step of the scheduling loop of `add`: skip void
assignments and outputs not in the missing set, otherwise run
`encode_partial` (row 0) or `merge_partial` (row > 0). -/
def execNode (missing : Finset (List Char))
    (input_data_paths : List (List Char)) (world_size : Nat)
    (dir : List Char) (row col rank : Nat) (fs : Finset (List Char)) :
    MergeResult :=
  match getPartialIndexPathMap input_data_paths world_size dir row col rank with
  | none => .ok fs
  | some pm =>
    match pm.output_index_path with
    | none => .ok fs
    | some output_path =>
      if output_path ∈ missing then
        if row = 0 then .ok (encodePartialFS pm fs)
        else mergePartialFS pm fs
      else .ok fs

/-- Propagate errors through the fold of the scheduling loop. -/
def execStep (missing : Finset (List Char))
    (input_data_paths : List (List Char)) (world_size : Nat)
    (dir : List Char) (row col rank : Nat) (st : MergeResult) : MergeResult :=
  match st with
  | .ok fs => execNode missing input_data_paths world_size dir row col rank fs
  | e => e

/-- The column/rank loops of one row of `add`, serialised in ascending
`(col, rank)` order.  The real run executes the ranks of one row
concurrently between barriers; the barrier after every row makes the row
boundaries of this serialisation exact. -/
def execRow (missing : Finset (List Char))
    (input_data_paths : List (List Char)) (world_size : Nat)
    (dir : List Char) (row : Nat) (st : MergeResult) : MergeResult :=
  (List.range (getNumCols input_data_paths.length world_size row)).foldl
    (fun st col =>
      (List.range world_size).foldl
        (fun st rank =>
          execStep missing input_data_paths world_size dir row col rank st)
        st)
    st

/-- The merge-row loop of `add`: the missing set is computed once from the
initial file system, then rows run bottom-up. -/
def runAdd (input_data_paths : List (List Char)) (world_size : Nat)
    (dir : List Char) (fs : Finset (List Char)) : MergeResult :=
  let num_rows := getNumRows input_data_paths.length
  let missing := getMissingIndexPaths input_data_paths world_size dir fs num_rows
  (List.range num_rows).foldl
    (fun st row => execRow missing input_data_paths world_size dir row st)
    (.ok fs)

/-- The full `(row, col, rank)` iteration space of `add`, in program order. -/
def schedule (num_batches world_size num_rows : Nat) : List (Nat × Nat × Nat) :=
  (List.range num_rows).flatMap (fun row =>
    (List.range (getNumCols num_batches world_size row)).flatMap (fun col =>
      (List.range world_size).map (fun rank => (row, col, rank))))

/-- The assignments that a run of `add` starting from file system `fs`
actually executes (i.e. that pass the skip test against the missing set). -/
def executedNodes (input_data_paths : List (List Char)) (world_size : Nat)
    (dir : List Char) (fs : Finset (List Char)) : List (Nat × Nat × Nat) :=
  let num_rows := getNumRows input_data_paths.length
  let missing := getMissingIndexPaths input_data_paths world_size dir fs num_rows
  (schedule input_data_paths.length world_size num_rows).filter
    (fun rck =>
      match getPartialIndexPathMap input_data_paths world_size dir
          rck.1 rck.2.1 rck.2.2 with
      | none => false
      | some pm =>
        match pm.output_index_path with
        | none => false
        | some output_path => output_path ∈ missing)

/-- The output paths of all (non-void) tree nodes: the storage state after
a run in which every node output was produced and nothing was deleted. -/
def allNodePaths (input_data_paths : List (List Char)) (world_size : Nat)
    (dir : List Char) : Finset (List Char) :=
  ((schedule input_data_paths.length world_size
      (getNumRows input_data_paths.length)).filterMap
    (fun rck =>
      (getPartialIndexPathMap input_data_paths world_size dir
          rck.1 rck.2.1 rck.2.2).bind
        (fun pm => pm.output_index_path))).toFinset

/-! ## Path naming facts -/

theorem batchStrLen_eq (nb : Nat) : batchStrLen nb = Nat.clog 10 nb + 1 := by
  rw [batchStrLen, clog10Aux_eq nb nb (le_refl nb)]

theorem getNumRows_eq (nb : Nat) : getNumRows nb = Nat.clog 2 nb + 1 := by
  rw [getNumRows, clog2Aux_eq nb nb (le_refl nb)]

theorem zfill_batchStrLen_length {nb m : Nat} (hm : m ≤ nb) (hnb : 1 ≤ nb) :
    (zfill (batchStrLen nb) m).length = batchStrLen nb := by
  apply zfill_length
  rw [batchStrLen_eq]
  exact natStr_length_le hm hnb

theorem indexPath_inj {dir : List Char} {nb a b a' b' : Nat}
    (ha : a < nb) (hb : b < nb) (ha' : a' < nb) (hb' : b' < nb)
    (h : indexPath dir nb a b = indexPath dir nb a' b') : a = a' ∧ b = b' := by
  have hnb : 1 ≤ nb := by omega
  unfold indexPath indexName at h
  simp only [List.append_assoc] at h
  have h1 := List.append_cancel_left h
  have h2 := List.append_cancel_left h1
  have h3 := List.append_cancel_left h2
  have hw : (zfill (batchStrLen nb) (b - a + 1)).length =
      (zfill (batchStrLen nb) (b' - a' + 1)).length := by
    rw [zfill_batchStrLen_length (by omega) hnb, zfill_batchStrLen_length (by omega) hnb]
  obtain ⟨hwseg, h4⟩ := List.append_inj h3 hw
  have h5 := List.append_cancel_left h4
  have hlena : (zfill (batchStrLen nb) a).length =
      (zfill (batchStrLen nb) a').length := by
    rw [zfill_batchStrLen_length (by omega) hnb, zfill_batchStrLen_length (by omega) hnb]
  obtain ⟨haseg, h6⟩ := List.append_inj h5 hlena
  have h7 := List.append_cancel_left h6
  have hlenb : (zfill (batchStrLen nb) b).length =
      (zfill (batchStrLen nb) b').length := by
    rw [zfill_batchStrLen_length (by omega) hnb, zfill_batchStrLen_length (by omega) hnb]
  obtain ⟨hbseg, _⟩ := List.append_inj h7 hlenb
  exact ⟨zfill_inj haseg, zfill_inj hbseg⟩

/-! ## Arithmetic facts about the address scheme -/

theorem getNumCols_pos {nb ws row : Nat} (hnb : 1 ≤ nb) (hws : 1 ≤ ws) :
    1 ≤ getNumCols nb ws row := by
  have hd : 0 < ws * 2 ^ row := Nat.mul_pos hws (Nat.pos_pow_of_pos row (by norm_num))
  rw [getNumCols]
  rw [Nat.le_div_iff_mul_le hd]
  omega

theorem getNumCols_mul_le {nb ws row : Nat} (hws : 1 ≤ ws) :
    nb ≤ getNumCols nb ws row * (ws * 2 ^ row) := by
  have hd : 0 < ws * 2 ^ row := Nat.mul_pos hws (Nat.pos_pow_of_pos row (by norm_num))
  rw [getNumCols]
  generalize hD : ws * 2 ^ row = D at hd ⊢
  have hdm := Nat.div_add_mod (nb + D - 1) D
  have hmlt : (nb + D - 1) % D < D := Nat.mod_lt _ hd
  generalize hq : (nb + D - 1) / D = q at hdm ⊢
  generalize hr : (nb + D - 1) % D = r at hdm hmlt
  have hcomm : q * D = D * q := Nat.mul_comm _ _
  rw [hcomm]
  generalize hP : D * q = P at hdm ⊢
  omega

/-- Every batch index `k * 2^row < nb` corresponds to an enumerated
assignment: `k < getNumCols * ws`. -/
theorem k_lt_cols_mul_ws {nb ws row k : Nat} (hws : 1 ≤ ws)
    (hk : 2 ^ row * k < nb) : k < getNumCols nb ws row * ws := by
  have h1 : nb ≤ getNumCols nb ws row * (ws * 2 ^ row) := getNumCols_mul_le hws
  have hp : 0 < 2 ^ row := Nat.pos_pow_of_pos row (by norm_num)
  by_contra hcon
  push_neg at hcon
  have h2 : getNumCols nb ws row * (ws * 2 ^ row) ≤ k * 2 ^ row := by
    calc getNumCols nb ws row * (ws * 2 ^ row)
        = getNumCols nb ws row * ws * 2 ^ row := by ring
    _ ≤ k * 2 ^ row := Nat.mul_le_mul_right _ hcon
  have h3 : k * 2 ^ row = 2 ^ row * k := Nat.mul_comm _ _
  omega

/-! ## Canonical node ranges and paths

Within a row, the non-void assignments are indexed by
`k = rank + col * world_size`; node `k` of `row` covers batches
`[2^row * k, min (2^row * (k+1) - 1) (nb - 1)]`. -/

/-- The output batch range of node `k` at `row` (start, clamped end). -/
def nodeRange (nb row k : Nat) : Nat × Nat :=
  (2 ^ row * k, min (2 ^ row * k + 2 ^ row - 1) (nb - 1))

/-- The canonical output path of node `k` at `row`. -/
def nodePath (dir : List Char) (nb row k : Nat) : List Char :=
  indexPath dir nb (nodeRange nb row k).1 (nodeRange nb row k).2

theorem nodeRange_bounds {nb row k : Nat} (hk : 2 ^ row * k < nb) :
    (nodeRange nb row k).1 < nb ∧ (nodeRange nb row k).2 < nb ∧
      (nodeRange nb row k).1 ≤ (nodeRange nb row k).2 := by
  have hp : 0 < 2 ^ row := Nat.pos_pow_of_pos row (by norm_num)
  unfold nodeRange
  simp only
  omega

theorem nodePath_inj {dir : List Char} {nb row k row' k' : Nat}
    (hk : 2 ^ row * k < nb) (hk' : 2 ^ row' * k' < nb)
    (h : nodePath dir nb row k = nodePath dir nb row' k') :
    nodeRange nb row k = nodeRange nb row' k' := by
  obtain ⟨h1, h2, _⟩ := nodeRange_bounds hk
  obtain ⟨h1', h2', _⟩ := nodeRange_bounds hk'
  obtain ⟨ha, hb⟩ := indexPath_inj h1 h2 h1' h2' h
  unfold nodeRange at ha hb ⊢
  simp only at ha hb
  simp only [Prod.mk.injEq]
  exact ⟨ha, hb⟩

theorem getBatchRange_eq {nb b0 b1 : Nat} (hnb : 1 ≤ nb) :
    getBatchRange nb b0 b1 =
      if nb ≤ b0 then none else some (b0, min b1 (nb - 1)) := by
  unfold getBatchRange
  by_cases h : nb ≤ b0 <;> by_cases h1 : nb ≤ b1 <;> simp [h, h1] <;> omega

theorem pow_succ_div_two (r : Nat) : 2 ^ (r + 1) / 2 = 2 ^ r := by
  rw [Nat.pow_succ]
  exact Nat.mul_div_cancel _ (by norm_num)

/-- Value of `get_partial_index_path_map` at row 0 and a non-void assignment. -/
theorem pathMap_eq_zero {dps : List (List Char)} {ws : Nat} {dir : List Char}
    {col rank : Nat} (hk : rank + col * ws < dps.length) :
    getPartialIndexPathMap dps ws dir 0 col rank =
      some ⟨rank + col * ws, dps.length,
        some (nodePath dir dps.length 0 (rank + col * ws)),
        .data (dps.getD (rank + col * ws) [])⟩ := by
  have hb0 : batchId0 ws 0 col rank = rank + col * ws := by
    unfold batchId0; simp
  unfold getPartialIndexPathMap
  rw [hb0]
  rw [if_neg (by omega)]
  simp only [if_pos rfl]
  have hout : getBatchRange dps.length (rank + col * ws)
      (batchId3 0 (rank + col * ws)) =
      some (nodeRange dps.length 0 (rank + col * ws)) := by
    rw [getBatchRange_eq (by omega), if_neg (by omega)]
    have h3 : batchId3 0 (rank + col * ws) = rank + col * ws := by
      unfold batchId3; simp
    rw [h3]
    unfold nodeRange
    rw [Option.some_inj, Prod.mk.injEq]
    refine ⟨by simp only [pow_zero, one_mul], ?_⟩
    simp only [pow_zero, one_mul]
    omega
  rw [hout]
  unfold batchRangeToIndexPath nodePath
  rfl

/-- Value of `get_partial_index_path_map` at row `r+1` and a non-void assignment:
the output is the canonical node path, the inputs are the canonical paths
of the two children, the second dropped exactly when it is void. -/
theorem pathMap_eq_succ {dps : List (List Char)} {ws : Nat} {dir : List Char}
    {r col rank : Nat} (hk : 2 ^ (r + 1) * (rank + col * ws) < dps.length) :
    getPartialIndexPathMap dps ws dir (r + 1) col rank =
      some ⟨2 ^ (r + 1) * (rank + col * ws), dps.length,
        some (nodePath dir dps.length (r + 1) (rank + col * ws)),
        .indexes (if 2 ^ r * (2 * (rank + col * ws) + 1) < dps.length then
          [nodePath dir dps.length r (2 * (rank + col * ws)),
            nodePath dir dps.length r (2 * (rank + col * ws) + 1)]
        else [nodePath dir dps.length r (2 * (rank + col * ws))])⟩ := by
  set nb := dps.length with hnb
  set k := rank + col * ws with hkdef
  have hb0 : batchId0 ws (r + 1) col rank = 2 ^ (r + 1) * k := rfl
  have hp : 0 < 2 ^ r := Nat.pos_pow_of_pos r (by norm_num)
  have hpow : 2 ^ (r + 1) = 2 ^ r * 2 := Nat.pow_succ 2 r
  have hnb1 : 1 ≤ nb := by omega
  unfold getPartialIndexPathMap
  rw [← hnb, hb0, if_neg (by omega)]
  have hb1 : batchId1 (r + 1) (2 ^ (r + 1) * k) = 2 ^ (r + 1) * k + 2 ^ r - 1 := by
    unfold batchId1
    rw [if_neg (by omega), pow_succ_div_two]
  have hb2 : batchId2 (r + 1) (2 ^ (r + 1) * k) = 2 ^ (r + 1) * k + 2 ^ r := by
    unfold batchId2
    rw [if_neg (by omega), hb1]
    omega
  have hb3 : batchId3 (r + 1) (2 ^ (r + 1) * k) = 2 ^ (r + 1) * k + 2 ^ (r + 1) - 1 := by
    unfold batchId3
    rw [if_neg (by omega), hb2, pow_succ_div_two]
    omega
  rw [if_neg (by omega : ¬(r + 1 = 0))]
  have hr1 : getBatchRange nb (2 ^ (r + 1) * k) (batchId1 (r + 1) (2 ^ (r + 1) * k)) =
      some (nodeRange nb r (2 * k)) := by
    rw [hb1, getBatchRange_eq hnb1, if_neg (by omega)]
    unfold nodeRange
    have : 2 ^ r * (2 * k) = 2 ^ (r + 1) * k := by rw [hpow]; ring
    rw [this]
  have hr2 : getBatchRange nb (batchId2 (r + 1) (2 ^ (r + 1) * k))
      (batchId3 (r + 1) (2 ^ (r + 1) * k)) =
      if 2 ^ r * (2 * k + 1) < nb then some (nodeRange nb r (2 * k + 1)) else none := by
    rw [hb2, hb3, getBatchRange_eq hnb1]
    have heq : 2 ^ r * (2 * k + 1) = 2 ^ (r + 1) * k + 2 ^ r := by rw [hpow]; ring
    by_cases hcase : 2 ^ r * (2 * k + 1) < nb
    · rw [if_neg (by omega), if_pos hcase]
      unfold nodeRange
      have h2nd : 2 ^ r * (2 * k + 1) + 2 ^ r - 1 = 2 ^ (r + 1) * k + 2 ^ (r + 1) - 1 := by
        omega
      rw [Option.some_inj, Prod.mk.injEq]
      exact ⟨by omega, by rw [h2nd]⟩
    · rw [if_pos (by omega), if_neg hcase]
  have hout : getBatchRange nb (2 ^ (r + 1) * k) (batchId3 (r + 1) (2 ^ (r + 1) * k)) =
      some (nodeRange nb (r + 1) k) := by
    rw [hb3, getBatchRange_eq hnb1, if_neg (by omega)]
    unfold nodeRange
    rfl
  simp only [hr1, hr2, hout, Nat.add_sub_cancel]
  by_cases hcase : 2 ^ r * (2 * k + 1) < nb
  · simp only [if_pos hcase, List.filterMap, batchRangeToIndexPath, nodePath]
    simp
  · simp only [if_neg hcase, List.filterMap, batchRangeToIndexPath, nodePath]
    simp

/-- Voidness: the map is `None` exactly when `batch_id_0 ≥ num_batches`. -/
theorem pathMap_none_iff {dps : List (List Char)} {ws : Nat} {dir : List Char}
    {row col rank : Nat} :
    getPartialIndexPathMap dps ws dir row col rank = none ↔
      dps.length ≤ batchId0 ws row col rank := by
  constructor
  · intro h
    by_contra hcon
    push_neg at hcon
    cases row with
    | zero =>
      rw [pathMap_eq_zero (by simpa [batchId0] using hcon)] at h
      exact Option.noConfusion h
    | succ r =>
      rw [pathMap_eq_succ (by simpa [batchId0] using hcon)] at h
      exact Option.noConfusion h
  · intro h
    unfold getPartialIndexPathMap
    rw [if_pos h]

theorem batchId3_eq (row b0 : Nat) : batchId3 row b0 = b0 + 2 ^ row - 1 := by
  cases row with
  | zero => simp [batchId3]
  | succ r =>
    have hp : 0 < 2 ^ r := Nat.pos_pow_of_pos r (by norm_num)
    have hpow : 2 ^ (r + 1) = 2 ^ r * 2 := Nat.pow_succ 2 r
    unfold batchId3 batchId2 batchId1
    rw [if_neg (by omega), if_neg (by omega), if_neg (by omega), pow_succ_div_two]
    omega

theorem outputBatchRange_eq (nb ws row col rank : Nat) :
    outputBatchRange nb ws row col rank =
      if nb ≤ 2 ^ row * (rank + col * ws) then none
      else some (nodeRange nb row (rank + col * ws)) := by
  unfold outputBatchRange batchId0
  by_cases h : nb ≤ 2 ^ row * (rank + col * ws)
  · rw [if_pos h, if_pos h]
  · rw [if_neg h, if_neg h, batchId3_eq, getBatchRange_eq (by omega), if_neg h]
    unfold nodeRange
    rfl

/-- C6: `get_partial_index_path_map` returns `None` (a void assignment)
exactly when `batch_id_0 = 2^row * (rank + col * world_size)` is at least
`num_batches`; on a non-void assignment it returns a path map whose output
path is non-`None`, with at least one input index path when `row > 0`. -/
theorem claim_C6 (dps : List (List Char)) (ws : Nat) (dir : List Char)
    (row col rank : Nat) :
    (getPartialIndexPathMap dps ws dir row col rank = none ↔
      dps.length ≤ 2 ^ row * (rank + col * ws)) ∧
    (2 ^ row * (rank + col * ws) < dps.length →
      ∃ pm, getPartialIndexPathMap dps ws dir row col rank = some pm ∧
        pm.output_index_path ≠ none ∧
        (0 < row → ∃ ps, pm.inputs = .indexes ps ∧ 1 ≤ ps.length)) := by
  constructor
  · rw [pathMap_none_iff]
    unfold batchId0
    exact Iff.rfl
  · intro hlt
    cases row with
    | zero =>
      simp only [pow_zero, one_mul] at hlt
      refine ⟨_, pathMap_eq_zero hlt, by simp, by omega⟩
    | succ r =>
      refine ⟨_, pathMap_eq_succ hlt, by simp, ?_⟩
      intro _
      refine ⟨_, rfl, ?_⟩
      by_cases hc : 2 ^ r * (2 * (rank + col * ws) + 1) < dps.length
      · rw [if_pos hc]; simp
      · rw [if_neg hc]; simp

/-- C2: with `num_rows` as computed by `get_num_rows`, the top row has
exactly one non-void assignment, `(col, rank) = (0, 0)`, and its batch
range is exactly `[0, num_batches - 1]`. -/
theorem claim_C2 (dps : List (List Char)) (ws : Nat) (dir : List Char)
    (hnb : 1 ≤ dps.length) (hws : 1 ≤ ws) :
    (getPartialIndexPathMap dps ws dir (getNumRows dps.length - 1) 0 0 ≠ none) ∧
    (outputBatchRange dps.length ws (getNumRows dps.length - 1) 0 0 =
      some (0, dps.length - 1)) ∧
    (∀ col rank, ¬(col = 0 ∧ rank = 0) →
      getPartialIndexPathMap dps ws dir (getNumRows dps.length - 1) col rank
        = none) := by
  have htop : getNumRows dps.length - 1 = Nat.clog 2 dps.length := by
    rw [getNumRows_eq]
    omega
  have hpow : dps.length ≤ 2 ^ (getNumRows dps.length - 1) := by
    rw [htop]
    exact Nat.le_pow_clog (by norm_num) dps.length
  have hppos : 0 < 2 ^ (getNumRows dps.length - 1) :=
    Nat.pos_pow_of_pos _ (by norm_num)
  refine ⟨?_, ?_, ?_⟩
  · rw [Ne, pathMap_none_iff]
    unfold batchId0
    intro hcon
    simp only [Nat.zero_mul, Nat.add_zero, Nat.zero_add, Nat.mul_zero] at hcon
    omega
  · rw [outputBatchRange_eq,
      if_neg (by simp only [Nat.zero_mul, Nat.add_zero, Nat.zero_add, Nat.mul_zero]; omega)]
    unfold nodeRange
    simp only [Nat.zero_mul, Nat.add_zero, Nat.zero_add, Nat.mul_zero,
      Option.some_inj, Prod.mk.injEq]
    exact ⟨trivial, by omega⟩
  · intro col rank hne
    rw [pathMap_none_iff]
    unfold batchId0
    have hk : 1 ≤ rank + col * ws := by
      rcases Nat.eq_zero_or_pos col with hc | hc
      · rcases Nat.eq_zero_or_pos rank with hr | hr
        · exact absurd ⟨hc, hr⟩ hne
        · omega
      · have : ws ≤ col * ws := Nat.le_mul_of_pos_left ws hc
        omega
    calc dps.length ≤ 2 ^ (getNumRows dps.length - 1) := hpow
    _ = 2 ^ (getNumRows dps.length - 1) * 1 := (Nat.mul_one _).symm
    _ ≤ 2 ^ (getNumRows dps.length - 1) * (rank + col * ws) :=
        Nat.mul_le_mul_left _ hk

theorem div_unique_of_range {p k b : Nat} (hp : 0 < p)
    (h1 : p * k ≤ b) (h2 : b < p * (k + 1)) : b / p = k := by
  have e1 : k * p = p * k := Nat.mul_comm _ _
  have e2 : (k + 1) * p = p * (k + 1) := Nat.mul_comm _ _
  have hk : k ≤ b / p := (Nat.le_div_iff_mul_le hp).mpr (by omega)
  have hk' : b / p < k + 1 := (Nat.div_lt_iff_lt_mul hp).mpr (by omega)
  omega

theorem div_mul_bounds (p b : Nat) (hp : 0 < p) :
    p * (b / p) ≤ b ∧ b < p * (b / p + 1) := by
  have h1 := Nat.div_add_mod b p
  have h2 := Nat.mod_lt b hp
  have h3 : p * (b / p + 1) = p * (b / p) + p := Nat.mul_succ p (b / p)
  omega

/-- C1: for every row below `num_rows`, the non-void assignment batch
ranges over `(col, rank)` with `col < num_cols(row)` and
`rank < world_size` partition `[0, num_batches - 1]`: every batch index is
covered by exactly one assignment, and every assigned range stays within
`[0, num_batches - 1]`. -/
theorem claim_C1 (dps : List (List Char)) (ws row : Nat)
    (hnb : 1 ≤ dps.length) (hws : 1 ≤ ws)
    (hrow : row < getNumRows dps.length) :
    (∀ b, b < dps.length → ∃! ckr : Nat × Nat,
      ckr.1 < getNumCols dps.length ws row ∧ ckr.2 < ws ∧
      ∃ r, outputBatchRange dps.length ws row ckr.1 ckr.2 = some r ∧
        r.1 ≤ b ∧ b ≤ r.2) ∧
    (∀ col rank r, outputBatchRange dps.length ws row col rank = some r →
      r.1 ≤ r.2 ∧ r.2 < dps.length) := by
  have hp : 0 < 2 ^ row := Nat.pos_pow_of_pos row (by norm_num)
  constructor
  · intro b hb
    obtain ⟨hbl, hbu⟩ := div_mul_bounds (2 ^ row) b hp
    obtain ⟨k, hkdef⟩ : ∃ k, k = b / 2 ^ row := ⟨b / 2 ^ row, rfl⟩
    rw [← hkdef] at hbl hbu
    have hkvoid : 2 ^ row * k < dps.length := by omega
    have hkcols : k < getNumCols dps.length ws row * ws := k_lt_cols_mul_ws hws hkvoid
    refine ⟨(k / ws, k % ws), ⟨?_, ?_, ?_⟩, ?_⟩
    · exact (Nat.div_lt_iff_lt_mul hws).mpr hkcols
    · exact Nat.mod_lt _ hws
    · have hsum : k % ws + k / ws * ws = k := by
        have h1 := Nat.mod_add_div k ws
        have h2 : k / ws * ws = ws * (k / ws) := Nat.mul_comm _ _
        omega
      rw [outputBatchRange_eq, hsum, if_neg (by omega)]
      refine ⟨_, rfl, ?_, ?_⟩
      · exact hbl
      · unfold nodeRange
        simp only
        have hms : 2 ^ row * (k + 1) = 2 ^ row * k + 2 ^ row := by ring
        omega
    · rintro ⟨c, rk⟩ ⟨hc, hrk, r, hr, hr1, hr2⟩
      rw [outputBatchRange_eq] at hr
      by_cases hv : dps.length ≤ 2 ^ row * (rk + c * ws)
      · rw [if_pos hv] at hr; exact absurd hr (by simp)
      · rw [if_neg hv] at hr
        have hrr : r = nodeRange dps.length row (rk + c * ws) := by
          exact (Option.some_inj.mp hr).symm
        subst hrr
        unfold nodeRange at hr1 hr2
        simp only at hr1 hr2
        have hr2a : b ≤ 2 ^ row * (rk + c * ws) + 2 ^ row - 1 :=
          le_trans hr2 (min_le_left _ _)
        have hmul : 2 ^ row * ((rk + c * ws) + 1) =
            2 ^ row * (rk + c * ws) + 2 ^ row := by ring
        have hkeq : rk + c * ws = k := by
          rw [hkdef]
          refine (div_unique_of_range hp hr1 (by omega)).symm
        have hrkeq : rk = k % ws := by
          rw [← hkeq, Nat.add_mul_mod_self_right, Nat.mod_eq_of_lt hrk]
        have hceq : c = k / ws := by
          rw [← hkeq, Nat.add_mul_div_right _ _ hws, Nat.div_eq_of_lt hrk]
          omega
        simp [hrkeq, hceq]
  · intro col rank r hr
    rw [outputBatchRange_eq] at hr
    by_cases hv : dps.length ≤ 2 ^ row * (rank + col * ws)
    · rw [if_pos hv] at hr; exact absurd hr (by simp)
    · rw [if_neg hv] at hr
      rw [← Option.some_inj.mp hr]
      obtain ⟨h1, h2, h3⟩ :=
        @nodeRange_bounds dps.length row (rank + col * ws) (by omega)
      exact ⟨h3, h2⟩

/-- Witness for C1 at `num_batches = 5`, `world_size = 2`, `row = 1`. -/
theorem claim_C1_witness :
    (∀ b, b < (["a".data, "b".data, "c".data, "d".data, "e".data] :
        List (List Char)).length → ∃! ckr : Nat × Nat,
      ckr.1 < getNumCols (["a".data, "b".data, "c".data, "d".data,
        "e".data] : List (List Char)).length 2 1 ∧ ckr.2 < 2 ∧
      ∃ r, outputBatchRange (["a".data, "b".data, "c".data, "d".data,
          "e".data] : List (List Char)).length 2 1 ckr.1 ckr.2 = some r ∧
        r.1 ≤ b ∧ b ≤ r.2) ∧
    (∀ col rank r, outputBatchRange (["a".data, "b".data, "c".data,
        "d".data, "e".data] : List (List Char)).length 2 1 col rank
        = some r → r.1 ≤ r.2 ∧ r.2 < (["a".data, "b".data, "c".data,
        "d".data, "e".data] : List (List Char)).length) :=
  claim_C1 ["a".data, "b".data, "c".data, "d".data, "e".data] 2 1
    (by decide) (by decide) (by decide)

/-- Shared concrete fixture: five batches. -/
def dps5 : List (List Char) :=
  ["a".data, "b".data, "c".data, "d".data, "e".data]

/-- Shared concrete fixture: two batches. -/
def dps2 : List (List Char) := ["a".data, "b".data]

/-- Shared concrete fixture directory path. -/
def dirD : List Char := "d".data

/-- Witness for C2 at `num_batches = 5`, `world_size = 2`. -/
theorem claim_C2_witness :
    (getPartialIndexPathMap dps5 2 dirD (getNumRows dps5.length - 1) 0 0 ≠ none) ∧
    (outputBatchRange dps5.length 2 (getNumRows dps5.length - 1) 0 0 =
      some (0, dps5.length - 1)) ∧
    (∀ col rank, ¬(col = 0 ∧ rank = 0) →
      getPartialIndexPathMap dps5 2 dirD (getNumRows dps5.length - 1) col rank
        = none) :=
  claim_C2 dps5 2 dirD (by decide) (by decide)

/-- Witness for C6: the inner non-voidness implication discharged at
`num_batches = 5`, `world_size = 2`, `(row, col, rank) = (1, 1, 0)`. -/
theorem claim_C6_witness :
    ∃ pm, getPartialIndexPathMap dps5 2 dirD 1 1 0 = some pm ∧
      pm.output_index_path ≠ none ∧
      (0 < 1 → ∃ ps, pm.inputs = .indexes ps ∧ 1 ≤ ps.length) :=
  (claim_C6 dps5 2 dirD 1 1 0).2 (by decide)

/-! ## The detector returns the empty set whenever the root output exists -/

theorem foldl_preserve {α β : Type} (P : β → Prop) {f : β → α → β}
    (l : List α) (h : ∀ b a, P b → P (f b a)) :
    ∀ init, P init → P (l.foldl f init) := by
  induction l with
  | nil => intro init hinit; exact hinit
  | cons a l ih =>
    intro init hinit
    exact ih _ (h init a hinit)

theorem missingStep_empty {dps : List (List Char)} {ws : Nat}
    {dir : List Char} {fs : Finset (List Char)} {num_rows row col rank : Nat}
    (h : ∀ pm op, getPartialIndexPathMap dps ws dir row col rank = some pm →
      pm.output_index_path = some op → row = num_rows - 1 → op ∈ fs) :
    missingStep dps ws dir fs num_rows ∅ row col rank = ∅ := by
  unfold missingStep
  cases hm : getPartialIndexPathMap dps ws dir row col rank with
  | none => rfl
  | some pm =>
    dsimp only
    cases ho : pm.output_index_path with
    | none => rfl
    | some op =>
      dsimp only
      have hcond : ¬(row = num_rows - 1 ∧ op ∉ fs) := by
        rintro ⟨htop, habs⟩
        exact habs (h pm op hm ho htop)
      rw [if_neg hcond, if_neg (by simp)]

theorem getMissingIndexPaths_empty {dps : List (List Char)} {ws : Nat}
    {dir : List Char} {fs : Finset (List Char)} {num_rows : Nat}
    (h : ∀ row col rank pm op,
      getPartialIndexPathMap dps ws dir row col rank = some pm →
      pm.output_index_path = some op → row = num_rows - 1 → op ∈ fs) :
    getMissingIndexPaths dps ws dir fs num_rows = ∅ := by
  unfold getMissingIndexPaths
  refine foldl_preserve (fun s => s = ∅) _ ?_ _ rfl
  intro acc row hacc
  dsimp only at hacc ⊢
  subst hacc
  refine foldl_preserve (fun s => s = ∅) _ ?_ _ rfl
  intro acc col hacc
  dsimp only at hacc ⊢
  subst hacc
  refine foldl_preserve (fun s => s = ∅) _ ?_ _ rfl
  intro acc rank hacc
  dsimp only at hacc ⊢
  subst hacc
  exact missingStep_empty (fun pm op hm ho => h row col rank pm op hm ho)

/-- At the top row, only `(col, rank) = (0, 0)` is non-void. -/
theorem top_row_only_zero {dps : List (List Char)} {ws : Nat}
    {dir : List Char} (hnb : 1 ≤ dps.length) (hws : 1 ≤ ws)
    {col rank : Nat} {pm : PathMap}
    (hm : getPartialIndexPathMap dps ws dir (getNumRows dps.length - 1)
      col rank = some pm) : col = 0 ∧ rank = 0 := by
  by_contra hne
  have hpow : dps.length ≤ 2 ^ (getNumRows dps.length - 1) := by
    rw [getNumRows_eq]
    simpa using Nat.le_pow_clog (by norm_num) dps.length
  have hk : 1 ≤ rank + col * ws := by
    rcases Nat.eq_zero_or_pos col with hc | hc
    · rcases Nat.eq_zero_or_pos rank with hr | hr
      · exact absurd ⟨hc, hr⟩ hne
      · omega
    · have : ws ≤ col * ws := Nat.le_mul_of_pos_left ws hc
      omega
  have hvoid : dps.length ≤ batchId0 ws (getNumRows dps.length - 1) col rank := by
    unfold batchId0
    calc dps.length ≤ 2 ^ (getNumRows dps.length - 1) := hpow
    _ = 2 ^ (getNumRows dps.length - 1) * 1 := (Nat.mul_one _).symm
    _ ≤ 2 ^ (getNumRows dps.length - 1) * (rank + col * ws) :=
        Nat.mul_le_mul_left _ hk
  rw [pathMap_none_iff.mpr hvoid] at hm
  exact Option.noConfusion hm

/-- The added index path is the canonical path of the top node. -/
theorem addedIndexPath_eq {dps : List (List Char)} {ws : Nat}
    {dir : List Char} (hnb : 1 ≤ dps.length) (hws : 1 ≤ ws) :
    getAddedIndexPath dps ws dir =
      some (nodePath dir dps.length (getNumRows dps.length - 1) 0) := by
  unfold getAddedIndexPath
  cases htop : getNumRows dps.length - 1 with
  | zero =>
    rw [pathMap_eq_zero (by simpa using hnb)]
    simp
  | succ r =>
    have hk : 2 ^ (r + 1) * (0 + 0 * ws) < dps.length := by
      simpa using hnb
    rw [pathMap_eq_succ hk]
    simp

theorem getNumRows_pos (nb : Nat) : 1 ≤ getNumRows nb := by
  rw [getNumRows_eq]
  omega

/-- The root path is among the node output paths. -/
theorem root_mem_allNodePaths {dps : List (List Char)} {ws : Nat}
    {dir : List Char} (hnb : 1 ≤ dps.length) (hws : 1 ≤ ws) :
    nodePath dir dps.length (getNumRows dps.length - 1) 0 ∈
      allNodePaths dps ws dir := by
  unfold allNodePaths
  rw [List.mem_toFinset, List.mem_filterMap]
  refine ⟨(getNumRows dps.length - 1, 0, 0), ?_, ?_⟩
  · unfold schedule
    rw [List.mem_flatMap]
    refine ⟨getNumRows dps.length - 1, ?_, ?_⟩
    · rw [List.mem_range]
      have := getNumRows_pos dps.length
      omega
    · rw [List.mem_flatMap]
      refine ⟨0, ?_, ?_⟩
      · rw [List.mem_range]
        exact getNumCols_pos hnb hws
      · rw [List.mem_map]
        exact ⟨0, by rw [List.mem_range]; omega, rfl⟩
  · have h := @addedIndexPath_eq dps ws dir hnb hws
    unfold getAddedIndexPath at h
    exact h

/-- If the root output file is present, the missing-work detector returns
the empty set and the scheduling loop of `add` executes nothing. -/
theorem detector_noop_of_root_mem {dps : List (List Char)} {ws : Nat}
    {dir : List Char} {fs : Finset (List Char)}
    (hnb : 1 ≤ dps.length) (hws : 1 ≤ ws)
    (hin : nodePath dir dps.length (getNumRows dps.length - 1) 0 ∈ fs) :
    getMissingIndexPaths dps ws dir fs (getNumRows dps.length) = ∅ ∧
    executedNodes dps ws dir fs = [] := by
  have hmiss : getMissingIndexPaths dps ws dir fs (getNumRows dps.length) = ∅ := by
    apply getMissingIndexPaths_empty
    intro row col rank pm op hm ho htop
    subst htop
    obtain ⟨hc0, hr0⟩ := top_row_only_zero hnb hws hm
    subst hc0
    subst hr0
    have hbind : getAddedIndexPath dps ws dir = pm.output_index_path := by
      unfold getAddedIndexPath
      rw [hm]
      rfl
    rw [addedIndexPath_eq hnb hws, ho] at hbind
    rw [← Option.some_inj.mp hbind]
    exact hin
  refine ⟨hmiss, ?_⟩
  unfold executedNodes
  dsimp only
  rw [hmiss, List.filter_eq_nil_iff]
  intro a ha
  cases hm2 : getPartialIndexPathMap dps ws dir a.1 a.2.1 a.2.2 with
  | none => simp [hm2]
  | some pm =>
    cases ho2 : pm.output_index_path with
    | none => simp [hm2, ho2]
    | some op => simp [hm2, ho2]

/-- C3: if the root node's output file already exists in storage,
`get_missing_index_paths` returns the empty set, and a re-run of `add`
executes zero `encode_partial` and zero `merge_partial` operations (every
node is skipped by the membership test against the missing set). -/
theorem claim_C3 (dps : List (List Char)) (ws : Nat) (dir : List Char)
    (fs : Finset (List Char)) (rp : List Char)
    (hnb : 1 ≤ dps.length) (hws : 1 ≤ ws)
    (hrp : getAddedIndexPath dps ws dir = some rp) (hin : rp ∈ fs) :
    getMissingIndexPaths dps ws dir fs (getNumRows dps.length) = ∅ ∧
    executedNodes dps ws dir fs = [] := by
  have heq : rp = nodePath dir dps.length (getNumRows dps.length - 1) 0 := by
    have h := @addedIndexPath_eq dps ws dir hnb hws
    rw [hrp] at h
    exact Option.some_inj.mp h
  exact detector_noop_of_root_mem hnb hws (heq ▸ hin)

/-- Witness for C3: two batches, one rank, storage holding only the root. -/
theorem claim_C3_witness :
    getMissingIndexPaths dps2 1 dirD {"d/added_02_00-01.faissindex".data}
      (getNumRows dps2.length) = ∅ ∧
    executedNodes dps2 1 dirD {"d/added_02_00-01.faissindex".data} = [] :=
  claim_C3 dps2 1 dirD {"d/added_02_00-01.faissindex".data}
    ("d/added_02_00-01.faissindex".data) (by decide) (by decide)
    (by decide) (by decide)

/-- The leaf output path for batch 0 of the two-batch fixture. -/
def p00 : List Char := "d/added_01_00-00.faissindex".data

/-- Counterexample to C4: with two batches and one rank, storage holds all
three node outputs; deleting the non-root leaf output `added_01_00-00`
leaves the detector's missing set empty — the deleted node (and hence its
ancestor chain) is *not* recomputed, contradicting the claimed
resumability. -/
theorem claim_C4_counterexample :
    p00 ∈ allNodePaths dps2 1 dirD ∧
    getAddedIndexPath dps2 1 dirD ≠ some p00 ∧
    getMissingIndexPaths dps2 1 dirD ((allNodePaths dps2 1 dirD).erase p00)
      (getNumRows dps2.length) = ∅ ∧
    p00 ∉ getMissingIndexPaths dps2 1 dirD
      ((allNodePaths dps2 1 dirD).erase p00) (getNumRows dps2.length) ∧
    executedNodes dps2 1 dirD ((allNodePaths dps2 1 dirD).erase p00) = [] := by
  decide

/-- C4 (amended): starting from a storage state in which every node output
is present, deleting any single non-root NodeOutput file and re-running
leaves the missing set empty and schedules no recomputation at all — in
particular the deleted node itself is not recomputed, because the detector
propagates need only downward from an absent root. -/
theorem claim_C4_amended (dps : List (List Char)) (ws : Nat)
    (dir : List Char) (p : List Char)
    (hnb : 1 ≤ dps.length) (hws : 1 ≤ ws)
    (hp : p ∈ allNodePaths dps ws dir)
    (hnotroot : getAddedIndexPath dps ws dir ≠ some p) :
    getMissingIndexPaths dps ws dir ((allNodePaths dps ws dir).erase p)
      (getNumRows dps.length) = ∅ ∧
    executedNodes dps ws dir ((allNodePaths dps ws dir).erase p) = [] := by
  apply detector_noop_of_root_mem hnb hws
  rw [Finset.mem_erase]
  constructor
  · intro heq
    apply hnotroot
    rw [@addedIndexPath_eq dps ws dir hnb hws, heq]
  · exact root_mem_allNodePaths hnb hws

/-- Witness for the amended C4 at the two-batch fixture. -/
theorem claim_C4_amended_witness :
    getMissingIndexPaths dps2 1 dirD ((allNodePaths dps2 1 dirD).erase p00)
      (getNumRows dps2.length) = ∅ ∧
    executedNodes dps2 1 dirD ((allNodePaths dps2 1 dirD).erase p00) = [] :=
  claim_C4_amended dps2 1 dirD p00 (by decide) (by decide) (by decide)
    (by decide)

/-! ## Merge effects (C7) -/

/-- When the second child is void, the parent's canonical path equals its
sole child's canonical path (both cover the same clamped batch range). -/
theorem nodePath_singleton_eq {dir : List Char} {nb r k : Nat}
    (hk : 2 ^ (r + 1) * k < nb) (hvoid : nb ≤ 2 ^ r * (2 * k + 1)) :
    nodePath dir nb (r + 1) k = nodePath dir nb r (2 * k) := by
  unfold nodePath nodeRange
  have h1 : 2 ^ r * (2 * k) = 2 ^ (r + 1) * k := by
    rw [Nat.pow_succ]; ring
  have h2 : 2 ^ r * (2 * k + 1) = 2 ^ (r + 1) * k + 2 ^ r := by
    rw [Nat.pow_succ]; ring
  have hpow : 2 ^ (r + 1) = 2 ^ r * 2 := Nat.pow_succ 2 r
  have hp : 0 < 2 ^ r := Nat.pos_pow_of_pos r (by norm_num)
  have hend1 : min (2 ^ (r + 1) * k + 2 ^ (r + 1) - 1) (nb - 1) = nb - 1 := by
    omega
  have hend2 : min (2 ^ (r + 1) * k + 2 ^ r - 1) (nb - 1) = nb - 1 := by
    omega
  simp only [h1, hend1, hend2]

/-- When the second child is non-void, the parent's path and the two
children's paths are pairwise distinct. -/
theorem twoMerge_paths_ne {dir : List Char} {nb r k : Nat}
    (hk : 2 ^ (r + 1) * k < nb) (hc : 2 ^ r * (2 * k + 1) < nb) :
    nodePath dir nb (r + 1) k ≠ nodePath dir nb r (2 * k) ∧
    nodePath dir nb (r + 1) k ≠ nodePath dir nb r (2 * k + 1) ∧
    nodePath dir nb r (2 * k) ≠ nodePath dir nb r (2 * k + 1) := by
  have h1 : 2 ^ r * (2 * k) = 2 ^ (r + 1) * k := by
    rw [Nat.pow_succ]; ring
  have h2 : 2 ^ r * (2 * k + 1) = 2 ^ (r + 1) * k + 2 ^ r := by
    rw [Nat.pow_succ]; ring
  have hpow : 2 ^ (r + 1) = 2 ^ r * 2 := Nat.pow_succ 2 r
  have hp : 0 < 2 ^ r := Nat.pos_pow_of_pos r (by norm_num)
  refine ⟨?_, ?_, ?_⟩
  · intro h
    have hr := nodePath_inj hk (by omega) h
    unfold nodeRange at hr
    rw [Prod.mk.injEq] at hr
    obtain ⟨_, he⟩ := hr
    omega
  · intro h
    have hr := nodePath_inj hk (by omega) h
    unfold nodeRange at hr
    rw [Prod.mk.injEq] at hr
    obtain ⟨hs, _⟩ := hr
    omega
  · intro h
    have hr := nodePath_inj (by omega) (by omega) h
    unfold nodeRange at hr
    rw [Prod.mk.injEq] at hr
    obtain ⟨hs, _⟩ := hr
    omega

theorem removeAll_pair {a b : List Char} {fs fs' : Finset (List Char)}
    (h : removeAll [a, b] fs = some fs') :
    a ∈ fs ∧ b ∈ fs.erase a ∧ fs' = (fs.erase a).erase b := by
  unfold removeAll at h
  by_cases ha : a ∈ fs
  · rw [if_pos ha] at h
    unfold removeAll at h
    by_cases hb : b ∈ fs.erase a
    · rw [if_pos hb] at h
      unfold removeAll at h
      exact ⟨ha, hb, (Option.some_inj.mp h).symm⟩
    · rw [if_neg hb] at h
      exact Option.noConfusion h
  · rw [if_neg ha] at h
    exact Option.noConfusion h

/-- Behaviour of `merge_partial` on a two-input node whose output path
differs from both input paths: the assert cannot fire, and on success the
inputs are gone, the output exists, nothing else was created, and all
other files survive. -/
theorem mergePartialFS_pair {pm : PathMap} {op a b : List Char}
    {fs fs' : Finset (List Char)}
    (hout : pm.output_index_path = some op)
    (hin : pm.inputs = .indexes [a, b])
    (hne1 : op ≠ a) (hne2 : op ≠ b) :
    mergePartialFS pm fs ≠ .assertFail ∧
    (mergePartialFS pm fs = .ok fs' →
      (a ∉ fs' ∧ b ∉ fs') ∧ op ∈ fs' ∧
      (∀ q ∈ fs', q ∈ fs ∨ q = op) ∧
      (∀ q ∈ fs, q ≠ a → q ≠ b → q ∈ fs')) := by
  unfold mergePartialFS
  rw [hout, hin]
  dsimp only
  by_cases hop : op ∉ fs
  · rw [if_pos hop]
    rw [if_neg (by simp)]
    by_cases hall : ([a, b] : List (List Char)).all (fun p => p ∈ fs)
    · rw [if_pos hall]
      cases hra : removeAll [a, b] (insert op fs) with
      | none =>
        constructor
        · intro hcon
          exact MergeResult.noConfusion hcon
        · intro hcon
          exact MergeResult.noConfusion hcon
      | some fs2 =>
        obtain ⟨ha2, hb2, hfs2⟩ := removeAll_pair hra
        constructor
        · intro hcon
          exact MergeResult.noConfusion hcon
        · intro hok
          have hfs' : fs' = fs2 := (MergeResult.ok.injEq _ _ ▸ hok).symm
          subst hfs'
          subst hfs2
          refine ⟨⟨?_, ?_⟩, ?_, ?_, ?_⟩
          · simp [Finset.mem_erase]
          · simp [Finset.mem_erase]
          · simp [Finset.mem_erase, Finset.mem_insert]
            exact ⟨fun h => absurd h hne2, fun h => absurd h hne1⟩
          · intro q hq
            simp [Finset.mem_erase, Finset.mem_insert] at hq
            rcases hq.2.2 with h | h
            · exact Or.inr h
            · exact Or.inl h
          · intro q hq hqa hqb
            simp [Finset.mem_erase, Finset.mem_insert]
            exact ⟨hqb, hqa, Or.inr hq⟩
    · rw [if_neg hall]
      constructor
      · intro hcon
        exact MergeResult.noConfusion hcon
      · intro hcon
        exact MergeResult.noConfusion hcon
  · rw [if_neg hop]
    rw [if_pos (by simp)]
    cases hra : removeAll [a, b] fs with
    | none =>
      constructor
      · intro hcon
        exact MergeResult.noConfusion hcon
      · intro hcon
        exact MergeResult.noConfusion hcon
    | some fs2 =>
      obtain ⟨ha2, hb2, hfs2⟩ := removeAll_pair hra
      constructor
      · intro hcon
        exact MergeResult.noConfusion hcon
      · intro hok
        have hfs' : fs' = fs2 := (MergeResult.ok.injEq _ _ ▸ hok).symm
        subst hfs'
        subst hfs2
        push_neg at hop
        refine ⟨⟨?_, ?_⟩, ?_, ?_, ?_⟩
        · simp [Finset.mem_erase]
        · simp [Finset.mem_erase]
        · simp [Finset.mem_erase]
          exact ⟨hne2, hne1, hop⟩
        · intro q hq
          simp [Finset.mem_erase] at hq
          exact Or.inl hq.2.2
        · intro q hq hqa hqb
          simp [Finset.mem_erase]
          exact ⟨hqb, hqa, hq⟩

/-- Behaviour of `merge_partial` on a singleton node, whose sole input
path coincides with its output path: a no-op when the output file exists,
the assert otherwise. -/
theorem mergePartialFS_single {pm : PathMap} {op : List Char}
    {fs : Finset (List Char)}
    (hout : pm.output_index_path = some op)
    (hin : pm.inputs = .indexes [op]) :
    (op ∈ fs → mergePartialFS pm fs = .ok fs) ∧
    (op ∉ fs → mergePartialFS pm fs = .assertFail) := by
  unfold mergePartialFS
  rw [hout, hin]
  dsimp only
  constructor
  · intro hop
    rw [if_neg (by simp [hop]), if_neg (by simp)]
  · intro hop
    rw [if_pos (by simp [hop]), if_pos (by simp)]

/-- C7: after `merge_partial` completes on a node with two or more input
paths, every input file has been deleted from storage and the node's
output file exists (and nothing other than the output was created); on a
node with exactly one input path (the singleton case) a completed
`merge_partial` deletes nothing and creates nothing. -/
theorem claim_C7 (dps : List (List Char)) (ws : Nat) (dir : List Char)
    (row col rank : Nat) (pm : PathMap) (ps : List (List Char))
    (fs fs' : Finset (List Char))
    (hm : getPartialIndexPathMap dps ws dir row col rank = some pm)
    (hps : pm.inputs = .indexes ps) :
    (2 ≤ ps.length → mergePartialFS pm fs = .ok fs' →
      (∀ q ∈ ps, q ∉ fs') ∧
      ∃ op, pm.output_index_path = some op ∧ op ∈ fs' ∧
        ∀ q ∈ fs', q ∈ fs ∨ q = op) ∧
    (ps.length = 1 → mergePartialFS pm fs = .ok fs' → fs' = fs) := by
  have hnonvoid : ¬ dps.length ≤ batchId0 ws row col rank := by
    intro hv
    rw [pathMap_none_iff.mpr hv] at hm
    exact Option.noConfusion hm
  cases row with
  | zero =>
    exfalso
    have hlt : rank + col * ws < dps.length := by
      unfold batchId0 at hnonvoid
      simpa using hnonvoid
    rw [pathMap_eq_zero hlt] at hm
    have hpm := Option.some_inj.mp hm
    rw [← hpm] at hps
    exact PathMapInputs.noConfusion hps
  | succ r =>
    have hlt : 2 ^ (r + 1) * (rank + col * ws) < dps.length := by
      unfold batchId0 at hnonvoid
      omega
    rw [pathMap_eq_succ hlt] at hm
    have hpm := Option.some_inj.mp hm
    by_cases hc : 2 ^ r * (2 * (rank + col * ws) + 1) < dps.length
    · rw [if_pos hc] at hpm
      have hout : pm.output_index_path =
          some (nodePath dir dps.length (r + 1) (rank + col * ws)) := by
        rw [← hpm]
      have hin : pm.inputs = .indexes
          [nodePath dir dps.length r (2 * (rank + col * ws)),
            nodePath dir dps.length r (2 * (rank + col * ws) + 1)] := by
        rw [← hpm]
      have hpseq : ps =
          [nodePath dir dps.length r (2 * (rank + col * ws)),
            nodePath dir dps.length r (2 * (rank + col * ws) + 1)] := by
        rw [hin] at hps
        exact (PathMapInputs.indexes.injEq _ _ ▸ hps).symm
      obtain ⟨hne1, hne2, _⟩ := @twoMerge_paths_ne dir dps.length r (rank + col * ws) hlt hc
      obtain ⟨_, hok⟩ := @mergePartialFS_pair pm
        (nodePath dir dps.length (r + 1) (rank + col * ws))
        (nodePath dir dps.length r (2 * (rank + col * ws)))
        (nodePath dir dps.length r (2 * (rank + col * ws) + 1))
        fs fs' hout hin hne1 hne2
      constructor
      · intro _ hmres
        obtain ⟨⟨hna, hnb'⟩, hop, hframe, _⟩ := hok hmres
        refine ⟨?_, _, hout, hop, hframe⟩
        intro q hq
        rw [hpseq] at hq
        rcases List.mem_pair.mp hq with h | h <;> rw [h]
        · exact hna
        · exact hnb'
      · intro h1
        rw [hpseq] at h1
        simp at h1
    · rw [if_neg hc] at hpm
      have hout : pm.output_index_path =
          some (nodePath dir dps.length (r + 1) (rank + col * ws)) := by
        rw [← hpm]
      have hsingle : nodePath dir dps.length (r + 1) (rank + col * ws) =
          nodePath dir dps.length r (2 * (rank + col * ws)) :=
        nodePath_singleton_eq hlt (by omega)
      have hin : pm.inputs = .indexes
          [nodePath dir dps.length (r + 1) (rank + col * ws)] := by
        rw [← hpm, hsingle]
      have hpseq : ps = [nodePath dir dps.length (r + 1) (rank + col * ws)] := by
        rw [hin] at hps
        exact (PathMapInputs.indexes.injEq _ _ ▸ hps).symm
      obtain ⟨hyes, hno⟩ := @mergePartialFS_single pm
          (nodePath dir dps.length (r + 1) (rank + col * ws)) fs hout hin
      constructor
      · intro h2
        rw [hpseq] at h2
        simp at h2
      · intro _ hmres
        by_cases hop : nodePath dir dps.length (r + 1) (rank + col * ws) ∈ fs
        · rw [hyes hop] at hmres
          exact (MergeResult.ok.injEq _ _ ▸ hmres).symm
        · rw [hno hop] at hmres
          exact MergeResult.noConfusion hmres

/-- The leaf output path for batch 1 of the two-batch fixture. -/
def p11 : List Char := "d/added_01_01-01.faissindex".data

/-- The root output path of the two-batch fixture. -/
def root2 : List Char := "d/added_02_00-01.faissindex".data

/-- The path map of the two-batch root node. -/
def pmC7 : PathMap := ⟨0, 2, some root2, .indexes [p00, p11]⟩

/-- Witness for C7: the two-batch root merge consumes both leaves and
leaves exactly the root file. -/
theorem claim_C7_witness :
    (∀ q ∈ [p00, p11], q ∉ ({root2} : Finset (List Char))) ∧
    ∃ op, pmC7.output_index_path = some op ∧
      op ∈ ({root2} : Finset (List Char)) ∧
      ∀ q ∈ ({root2} : Finset (List Char)),
        q ∈ ({p00, p11} : Finset (List Char)) ∨ q = op :=
  (claim_C7 dps2 1 dirD 1 0 0 pmC7 [p00, p11] {p00, p11} {root2}
    (by decide) (by decide)).1 (by decide) (by decide)

/-- The number of input index paths recorded in a path map. -/
def inputCount (pm : PathMap) : Nat :=
  match pm.inputs with
  | .data _ => 0
  | .indexes ps => ps.length

/-- C9: the concrete scenario `num_batches = 5`, `world_size = 2`:
`num_rows = 4`; at row 0 rank 0 owns exactly batches `{0, 2, 4}` and
rank 1 exactly `{1, 3}`; at row 1 the non-void assignments are exactly
the two-input nodes `[0,1]` and `[2,3]` and the one-input singleton
`[4,4]`. -/
theorem claim_C9 :
    getNumRows dps5.length = 4 ∧
    getNumCols dps5.length 2 0 = 3 ∧
    (outputBatchRange dps5.length 2 0 0 0 = some (0, 0) ∧
      outputBatchRange dps5.length 2 0 1 0 = some (2, 2) ∧
      outputBatchRange dps5.length 2 0 2 0 = some (4, 4)) ∧
    (outputBatchRange dps5.length 2 0 0 1 = some (1, 1) ∧
      outputBatchRange dps5.length 2 0 1 1 = some (3, 3) ∧
      outputBatchRange dps5.length 2 0 2 1 = none) ∧
    getNumCols dps5.length 2 1 = 2 ∧
    (outputBatchRange dps5.length 2 1 0 0 = some (0, 1) ∧
      outputBatchRange dps5.length 2 1 0 1 = some (2, 3) ∧
      outputBatchRange dps5.length 2 1 1 0 = some (4, 4) ∧
      outputBatchRange dps5.length 2 1 1 1 = none) ∧
    ((getPartialIndexPathMap dps5 2 dirD 1 0 0).map inputCount = some 2 ∧
      (getPartialIndexPathMap dps5 2 dirD 1 0 1).map inputCount = some 2 ∧
      (getPartialIndexPathMap dps5 2 dirD 1 1 0).map inputCount = some 1 ∧
      getPartialIndexPathMap dps5 2 dirD 1 1 1 = none) := by
  decide

/-! ## Merge arithmetic (C8)

The faiss index itself is the external collaborator of §6.  An index is
modelled by its total vector count and its entry list (vector id, source
tag). -/

/-- An in-memory index: `ntotal` and the inverted-list entries, each an
`(id, tag)` pair. -/
structure FIndex where
  ntotal : Nat
  entries : List (Nat × Nat)
deriving DecidableEq

/-- Modelled from the spec: the ⟦index backend⟧ operation
`merge(into, from, id_offset)` of §6 — the faiss primitive
`invlists.merge_from(input_invlists, id_offset)` is external to the
repository — "appends `from`'s entries into `into`, renumbering vector
IDs starting at `id_offset`".  `ntotal` is untouched (the source updates
it separately). -/
def invlistsMergeFrom (out inp : FIndex) (id_offset : Nat) : FIndex :=
  { out with
    entries := out.entries ++ inp.entries.map (fun e => (id_offset + e.1, e.2)) }

/-- The merge loop of `merge_partial` over the loaded input indexes: the
output starts as the first input; each further input is merged with
`merge_from(input_invlists, output_index.ntotal)` followed by
`output_index.ntotal += input_index.ntotal`. -/
def mergeIndexes : List FIndex → Option FIndex
  | [] => none
  | i0 :: rest => some (rest.foldl
      (fun out inp =>
        { invlistsMergeFrom out inp out.ntotal with
          ntotal := out.ntotal + inp.ntotal })
      i0)

theorem mergeIndexes_foldl_ntotal (rest : List FIndex) :
    ∀ out0 : FIndex,
      (rest.foldl
        (fun out inp =>
          { invlistsMergeFrom out inp out.ntotal with
            ntotal := out.ntotal + inp.ntotal })
        out0).ntotal = out0.ntotal + (rest.map FIndex.ntotal).sum := by
  induction rest with
  | nil => intro out0; simp
  | cons i rest ih =>
    intro out0
    rw [List.foldl_cons, ih]
    simp [invlistsMergeFrom]
    omega

/-- A single-vector leaf index for batch `b` (the test fixture of §8:
one vector per batch, id 0, tagged by its batch). -/
def leafIndex (b : Nat) : FIndex := ⟨1, [(0, b)]⟩

/-- C8: a two-input merge appends the second index's entries into the
first with ids renumbered starting at the first index's `ntotal`, and the
output's `ntotal` is the sum of the inputs' (for any number of inputs);
on the 5-batch one-vector-per-batch fixture the root index has
`ntotal = 5` and ids `0..4`. -/
theorem claim_C8 :
    (∀ i0 i1 out : FIndex, mergeIndexes [i0, i1] = some out →
      out.ntotal = i0.ntotal + i1.ntotal ∧
      out.entries = i0.entries ++
        i1.entries.map (fun e => (i0.ntotal + e.1, e.2))) ∧
    (∀ (l : List FIndex) (out : FIndex), mergeIndexes l = some out →
      out.ntotal = (l.map FIndex.ntotal).sum) ∧
    ((mergeIndexes [leafIndex 0, leafIndex 1]).bind (fun m01 =>
      (mergeIndexes [leafIndex 2, leafIndex 3]).bind (fun m23 =>
        (mergeIndexes [m01, m23]).bind (fun m03 =>
          mergeIndexes [m03, leafIndex 4]))) =
      some ⟨5, [(0, 0), (1, 1), (2, 2), (3, 3), (4, 4)]⟩) := by
  refine ⟨?_, ?_, by decide⟩
  · intro i0 i1 out hm
    unfold mergeIndexes at hm
    have h := Option.some_inj.mp hm
    rw [← h]
    simp [invlistsMergeFrom]
  · intro l out hm
    cases l with
    | nil => exact Option.noConfusion hm
    | cons i0 rest =>
      unfold mergeIndexes at hm
      have h := Option.some_inj.mp hm
      rw [← h, mergeIndexes_foldl_ntotal]
      simp

/-! ## The merge-partial assert can never fire (C10)

The invariant: while row `r` executes, every row-`(r-1)` node whose path
is in the missing set and whose parent has not yet executed still has its
file on disk; every already-executed row-`r` node with path in the missing
set has its file on disk. -/

theorem nodePath_inj_k {dir : List Char} {nb r j j' : Nat}
    (hj : 2 ^ r * j < nb) (hj' : 2 ^ r * j' < nb)
    (h : nodePath dir nb r j = nodePath dir nb r j') : j = j' := by
  have hr := nodePath_inj hj hj' h
  unfold nodeRange at hr
  rw [Prod.mk.injEq] at hr
  have hp : 0 < 2 ^ r := Nat.pos_pow_of_pos r (by norm_num)
  exact Nat.eq_of_mul_eq_mul_left hp hr.1

theorem nodePath_cross {dir : List Char} {nb r k j : Nat}
    (hk : 2 ^ (r + 1) * k < nb) (hj : 2 ^ r * j < nb)
    (h : nodePath dir nb (r + 1) k = nodePath dir nb r j) : j = 2 * k := by
  have hr := nodePath_inj hk hj h
  unfold nodeRange at hr
  rw [Prod.mk.injEq] at hr
  have hp : 0 < 2 ^ r := Nat.pos_pow_of_pos r (by norm_num)
  have hpow : 2 ^ (r + 1) = 2 ^ r * 2 := Nat.pow_succ 2 r
  have h1 : 2 ^ (r + 1) * k = 2 ^ r * (2 * k) := by rw [hpow]; ring
  rw [h1] at hr
  exact (Nat.eq_of_mul_eq_mul_left hp hr.1).symm

theorem foldl_range_ind {β : Type} (f : β → Nat → β) (P : Nat → β → Prop)
    (n : Nat) (hstep : ∀ t b, t < n → P t b → P (t + 1) (f b t)) :
    ∀ init, P 0 init → P n ((List.range n).foldl f init) := by
  induction n with
  | zero => intro init h0; exact h0
  | succ n ih =>
    intro init h0
    rw [List.range_succ, List.foldl_append]
    exact hstep n _ (Nat.lt_succ_self n)
      (ih (fun t b ht => hstep t b (Nat.lt_succ_of_lt ht)) init h0)

/-- Part (a) of the row invariant: every node of the row below whose path
is marked missing and whose parent (index `j / 2`) has not yet been
executed (`t ≤ j / 2`) still has its output file. -/
def JA (dps : List (List Char)) (dir : List Char)
    (M fs : Finset (List Char)) (r t : Nat) : Prop :=
  match r with
  | 0 => True
  | r' + 1 => ∀ j, 2 ^ r' * j < dps.length → t ≤ j / 2 →
      nodePath dir dps.length r' j ∈ M → nodePath dir dps.length r' j ∈ fs

/-- Part (b) of the row invariant: every already-executed node of the
current row (index `< t`) whose path is marked missing has its file. -/
def JB (dps : List (List Char)) (dir : List Char)
    (M fs : Finset (List Char)) (r t : Nat) : Prop :=
  ∀ k, k < t → 2 ^ r * k < dps.length →
    nodePath dir dps.length r k ∈ M → nodePath dir dps.length r k ∈ fs

/-- A step result is sound: it is not the assert failure, and any
successful state satisfies `P`. -/
def execOk (st : MergeResult) (P : Finset (List Char) → Prop) : Prop :=
  st ≠ .assertFail ∧ ∀ fs, st = .ok fs → P fs

theorem execNode_inv_succ {dps : List (List Char)} {ws : Nat}
    {dir : List Char} (M : Finset (List Char)) {r' col rank : Nat}
    {fs : Finset (List Char)}
    (hA : JA dps dir M fs (r' + 1) (rank + col * ws))
    (hB : JB dps dir M fs (r' + 1) (rank + col * ws)) :
    execNode M dps ws dir (r' + 1) col rank fs ≠ .assertFail ∧
    ∀ fs', execNode M dps ws dir (r' + 1) col rank fs = .ok fs' →
      JA dps dir M fs' (r' + 1) (rank + col * ws + 1) ∧
      JB dps dir M fs' (r' + 1) (rank + col * ws + 1) := by
  simp only [JA] at hA ⊢
  unfold JB at hB ⊢
  have hp : 0 < 2 ^ r' := Nat.pos_pow_of_pos r' (by norm_num)
  have hpow : 2 ^ (r' + 1) = 2 ^ r' * 2 := Nat.pow_succ 2 r'
  have h2k : 2 ^ r' * (2 * (rank + col * ws)) = 2 ^ (r' + 1) * (rank + col * ws) := by
    rw [hpow]; ring
  by_cases hvoid : dps.length ≤ 2 ^ (r' + 1) * (rank + col * ws)
  · have hnone : getPartialIndexPathMap dps ws dir (r' + 1) col rank = none :=
      pathMap_none_iff.mpr hvoid
    unfold execNode
    rw [hnone]
    refine ⟨fun h => MergeResult.noConfusion h, ?_⟩
    intro fs' hok
    have hfs : fs' = fs := ((MergeResult.ok.injEq _ _).mp hok).symm
    subst hfs
    refine ⟨?_, ?_⟩
    · intro j hjv hjt hjM
      exact hA j hjv (by omega) hjM
    · intro k' hk' hkv hkM
      rcases Nat.lt_succ_iff_lt_or_eq.mp hk' with h | h
      · exact hB k' h hkv hkM
      · subst h; omega
  · have hlt : 2 ^ (r' + 1) * (rank + col * ws) < dps.length := by omega
    unfold execNode
    rw [pathMap_eq_succ hlt]
    dsimp only
    by_cases hM : nodePath dir dps.length (r' + 1) (rank + col * ws) ∈ M
    · rw [if_pos hM, if_neg (by omega : ¬(r' + 1 = 0))]
      by_cases hc : 2 ^ r' * (2 * (rank + col * ws) + 1) < dps.length
      · rw [if_pos hc]
        obtain ⟨hne1, hne2, hne3⟩ :=
          @twoMerge_paths_ne dir dps.length r' (rank + col * ws) hlt hc
        refine ⟨?_, ?_⟩
        · exact (@mergePartialFS_pair
            ⟨2 ^ (r' + 1) * (rank + col * ws), dps.length,
              some (nodePath dir dps.length (r' + 1) (rank + col * ws)),
              .indexes [nodePath dir dps.length r' (2 * (rank + col * ws)),
                nodePath dir dps.length r' (2 * (rank + col * ws) + 1)]⟩
            (nodePath dir dps.length (r' + 1) (rank + col * ws))
            (nodePath dir dps.length r' (2 * (rank + col * ws)))
            (nodePath dir dps.length r' (2 * (rank + col * ws) + 1))
            fs ∅ rfl rfl hne1 hne2).1
        · intro fs' hok
          obtain ⟨⟨hna, hnb2⟩, hop, hframe, hkeep⟩ := (@mergePartialFS_pair
            ⟨2 ^ (r' + 1) * (rank + col * ws), dps.length,
              some (nodePath dir dps.length (r' + 1) (rank + col * ws)),
              .indexes [nodePath dir dps.length r' (2 * (rank + col * ws)),
                nodePath dir dps.length r' (2 * (rank + col * ws) + 1)]⟩
            (nodePath dir dps.length (r' + 1) (rank + col * ws))
            (nodePath dir dps.length r' (2 * (rank + col * ws)))
            (nodePath dir dps.length r' (2 * (rank + col * ws) + 1))
            fs fs' rfl rfl hne1 hne2).2 hok
          refine ⟨?_, ?_⟩
          · intro j hjv hjt hjM
            have hfsj := hA j hjv (by omega) hjM
            refine hkeep _ hfsj ?_ ?_
            · intro heq
              have := nodePath_inj_k hjv (by omega) heq
              omega
            · intro heq
              have := nodePath_inj_k hjv (by omega) heq
              omega
          · intro k' hk' hkv hkM
            rcases Nat.lt_succ_iff_lt_or_eq.mp hk' with h | h
            · have hfsk := hB k' h hkv hkM
              refine hkeep _ hfsk ?_ ?_
              · intro heq
                have := nodePath_cross hkv (by omega) heq
                omega
              · intro heq
                have := nodePath_cross hkv (by omega) heq
                omega
            · subst h
              exact hop
      · rw [if_neg hc]
        have hsingle :=
          @nodePath_singleton_eq dir dps.length r' (rank + col * ws) hlt (by omega)
        have hopfs : nodePath dir dps.length (r' + 1) (rank + col * ws) ∈ fs := by
          rw [hsingle]
          refine hA (2 * (rank + col * ws)) (by omega) (by omega) ?_
          rw [← hsingle]
          exact hM
        have hstep := @mergePartialFS_single
          ⟨2 ^ (r' + 1) * (rank + col * ws), dps.length,
            some (nodePath dir dps.length (r' + 1) (rank + col * ws)),
            .indexes [nodePath dir dps.length r' (2 * (rank + col * ws))]⟩
          (nodePath dir dps.length (r' + 1) (rank + col * ws))
          fs rfl (by rw [hsingle])
        rw [hstep.1 hopfs]
        refine ⟨fun h => MergeResult.noConfusion h, ?_⟩
        intro fs' hok
        have hfs : fs' = fs := ((MergeResult.ok.injEq _ _).mp hok).symm
        subst hfs
        refine ⟨?_, ?_⟩
        · intro j hjv hjt hjM
          exact hA j hjv (by omega) hjM
        · intro k' hk' hkv hkM
          rcases Nat.lt_succ_iff_lt_or_eq.mp hk' with h | h
          · exact hB k' h hkv hkM
          · subst h
            exact hopfs
    · rw [if_neg hM]
      refine ⟨fun h => MergeResult.noConfusion h, ?_⟩
      intro fs' hok
      have hfs : fs' = fs := ((MergeResult.ok.injEq _ _).mp hok).symm
      subst hfs
      refine ⟨?_, ?_⟩
      · intro j hjv hjt hjM
        exact hA j hjv (by omega) hjM
      · intro k' hk' hkv hkM
        rcases Nat.lt_succ_iff_lt_or_eq.mp hk' with h | h
        · exact hB k' h hkv hkM
        · subst h
          exact absurd hkM hM

theorem execNode_inv_zero {dps : List (List Char)} {ws : Nat}
    {dir : List Char} (M : Finset (List Char)) {col rank : Nat}
    {fs : Finset (List Char)}
    (hB : JB dps dir M fs 0 (rank + col * ws)) :
    execNode M dps ws dir 0 col rank fs ≠ .assertFail ∧
    ∀ fs', execNode M dps ws dir 0 col rank fs = .ok fs' →
      JB dps dir M fs' 0 (rank + col * ws + 1) := by
  unfold JB at hB ⊢
  by_cases hvoid : dps.length ≤ rank + col * ws
  · have hnone : getPartialIndexPathMap dps ws dir 0 col rank = none := by
      apply pathMap_none_iff.mpr
      unfold batchId0
      simpa using hvoid
    unfold execNode
    rw [hnone]
    refine ⟨fun h => MergeResult.noConfusion h, ?_⟩
    intro fs' hok
    have hfs : fs' = fs := ((MergeResult.ok.injEq _ _).mp hok).symm
    subst hfs
    intro k' hk' hkv hkM
    rcases Nat.lt_succ_iff_lt_or_eq.mp hk' with h | h
    · exact hB k' h hkv hkM
    · subst h
      simp only [pow_zero, one_mul] at hkv
      omega
  · have hlt : rank + col * ws < dps.length := by omega
    unfold execNode
    rw [pathMap_eq_zero hlt]
    dsimp only
    by_cases hM : nodePath dir dps.length 0 (rank + col * ws) ∈ M
    · rw [if_pos hM, if_pos rfl]
      refine ⟨fun h => MergeResult.noConfusion h, ?_⟩
      intro fs' hok
      have hfs : fs' = encodePartialFS
          ⟨rank + col * ws, dps.length,
            some (nodePath dir dps.length 0 (rank + col * ws)),
            .data (dps.getD (rank + col * ws) [])⟩ fs :=
        ((MergeResult.ok.injEq _ _).mp hok).symm
      subst hfs
      unfold encodePartialFS
      dsimp only
      intro k' hk' hkv hkM
      by_cases hop : nodePath dir dps.length 0 (rank + col * ws) ∈ fs
      · rw [if_pos hop]
        rcases Nat.lt_succ_iff_lt_or_eq.mp hk' with h | h
        · exact hB k' h hkv hkM
        · subst h
          exact hop
      · rw [if_neg hop]
        rcases Nat.lt_succ_iff_lt_or_eq.mp hk' with h | h
        · exact Finset.mem_insert_of_mem (hB k' h hkv hkM)
        · subst h
          exact Finset.mem_insert_self _ _
    · rw [if_neg hM]
      refine ⟨fun h => MergeResult.noConfusion h, ?_⟩
      intro fs' hok
      have hfs : fs' = fs := ((MergeResult.ok.injEq _ _).mp hok).symm
      subst hfs
      intro k' hk' hkv hkM
      rcases Nat.lt_succ_iff_lt_or_eq.mp hk' with h | h
      · exact hB k' h hkv hkM
      · subst h
        exact absurd hkM hM

theorem execOk_mono {st : MergeResult} {P Q : Finset (List Char) → Prop}
    (h : execOk st P) (hPQ : ∀ fs, P fs → Q fs) : execOk st Q :=
  ⟨h.1, fun fs hfs => hPQ fs (h.2 fs hfs)⟩

theorem execStep_inv_succ {dps : List (List Char)} {ws : Nat}
    {dir : List Char} (M : Finset (List Char)) {r' col rank : Nat}
    {st : MergeResult}
    (hst : execOk st (fun fs => JA dps dir M fs (r' + 1) (col * ws + rank) ∧
      JB dps dir M fs (r' + 1) (col * ws + rank))) :
    execOk (execStep M dps ws dir (r' + 1) col rank st)
      (fun fs => JA dps dir M fs (r' + 1) (col * ws + rank + 1) ∧
        JB dps dir M fs (r' + 1) (col * ws + rank + 1)) := by
  obtain ⟨hna, hok⟩ := hst
  cases st with
  | ok fs =>
    obtain ⟨hA', hB'⟩ := hok fs rfl
    have hA2 : JA dps dir M fs (r' + 1) (rank + col * ws) := by
      rw [Nat.add_comm rank (col * ws)]
      exact hA'
    have hB2 : JB dps dir M fs (r' + 1) (rank + col * ws) := by
      rw [Nat.add_comm rank (col * ws)]
      exact hB'
    obtain ⟨hnas, hpost⟩ := execNode_inv_succ M hA2 hB2
    unfold execStep
    refine ⟨hnas, ?_⟩
    intro fs' hfs'
    obtain ⟨hA3, hB3⟩ := hpost fs' hfs'
    constructor
    · rw [Nat.add_comm (col * ws) rank]
      exact hA3
    · rw [Nat.add_comm (col * ws) rank]
      exact hB3
  | assertFail => exact absurd rfl hna
  | ioError =>
    unfold execStep
    refine ⟨fun h => MergeResult.noConfusion h, ?_⟩
    intro fs' hfs'
    exact MergeResult.noConfusion hfs'

theorem execStep_inv_zero {dps : List (List Char)} {ws : Nat}
    {dir : List Char} (M : Finset (List Char)) {col rank : Nat}
    {st : MergeResult}
    (hst : execOk st (fun fs => JB dps dir M fs 0 (col * ws + rank))) :
    execOk (execStep M dps ws dir 0 col rank st)
      (fun fs => JB dps dir M fs 0 (col * ws + rank + 1)) := by
  obtain ⟨hna, hok⟩ := hst
  cases st with
  | ok fs =>
    have hB2 : JB dps dir M fs 0 (rank + col * ws) := by
      rw [Nat.add_comm rank (col * ws)]
      exact hok fs rfl
    obtain ⟨hnas, hpost⟩ := execNode_inv_zero M hB2
    unfold execStep
    refine ⟨hnas, ?_⟩
    intro fs' hfs'
    rw [Nat.add_comm (col * ws) rank]
    exact hpost fs' hfs'
  | assertFail => exact absurd rfl hna
  | ioError =>
    unfold execStep
    refine ⟨fun h => MergeResult.noConfusion h, ?_⟩
    intro fs' hfs'
    exact MergeResult.noConfusion hfs'

theorem execRow_inv_succ {dps : List (List Char)} {ws : Nat}
    {dir : List Char} (M : Finset (List Char)) (r' : Nat)
    {st : MergeResult}
    (hst : execOk st (fun fs => JA dps dir M fs (r' + 1) 0 ∧
      JB dps dir M fs (r' + 1) 0)) :
    execOk (execRow M dps ws dir (r' + 1) st)
      (fun fs => JA dps dir M fs (r' + 1)
          (getNumCols dps.length ws (r' + 1) * ws) ∧
        JB dps dir M fs (r' + 1)
          (getNumCols dps.length ws (r' + 1) * ws)) := by
  unfold execRow
  refine foldl_range_ind _
    (fun col st => execOk st
      (fun fs => JA dps dir M fs (r' + 1) (col * ws) ∧
        JB dps dir M fs (r' + 1) (col * ws)))
    (getNumCols dps.length ws (r' + 1)) ?_ st ?_
  · intro col st2 _ hcol
    have hinner := foldl_range_ind _
      (fun rank st => execOk st
        (fun fs => JA dps dir M fs (r' + 1) (col * ws + rank) ∧
          JB dps dir M fs (r' + 1) (col * ws + rank)))
      ws (fun rank st3 _ hq => execStep_inv_succ M hq) st2 hcol
    have harith : col * ws + ws = (col + 1) * ws := by ring
    dsimp only at hinner
    simp only [harith] at hinner
    exact hinner
  · have harith : 0 * ws = 0 := Nat.zero_mul ws
    dsimp only
    simp only [harith]
    exact hst

theorem execRow_inv_zero {dps : List (List Char)} {ws : Nat}
    {dir : List Char} (M : Finset (List Char)) {st : MergeResult}
    (hst : execOk st (fun fs => JB dps dir M fs 0 0)) :
    execOk (execRow M dps ws dir 0 st)
      (fun fs => JB dps dir M fs 0 (getNumCols dps.length ws 0 * ws)) := by
  unfold execRow
  refine foldl_range_ind _
    (fun col st => execOk st (fun fs => JB dps dir M fs 0 (col * ws)))
    (getNumCols dps.length ws 0) ?_ st ?_
  · intro col st2 _ hcol
    have hinner := foldl_range_ind _
      (fun rank st => execOk st (fun fs => JB dps dir M fs 0 (col * ws + rank)))
      ws (fun rank st3 _ hq => execStep_inv_zero M hq) st2 hcol
    have harith : col * ws + ws = (col + 1) * ws := by ring
    dsimp only at hinner
    simp only [harith] at hinner
    exact hinner
  · have harith : 0 * ws = 0 := Nat.zero_mul ws
    dsimp only
    simp only [harith]
    exact hst

/-- The serialised bottom-up execution of `add`'s merge rows never reaches
the `assert len(input_index_paths) >= 2` failure, whatever the missing set
and the initial file system. -/
theorem execAll_no_assert (dps : List (List Char)) (ws : Nat)
    (dir : List Char) (hws : 1 ≤ ws) (M : Finset (List Char))
    (fs : Finset (List Char)) (num_rows : Nat) :
    (List.range num_rows).foldl
      (fun st row => execRow M dps ws dir row st) (.ok fs) ≠ .assertFail := by
  have hmain := foldl_range_ind
    (fun st row => execRow M dps ws dir row st)
    (fun row st => execOk st (fun fs2 => JA dps dir M fs2 row 0))
    num_rows ?_ (.ok fs) ?_
  · exact hmain.1
  · intro row st _ hrow
    cases row with
    | zero =>
      have h0 : execOk st (fun fs2 => JB dps dir M fs2 0 0) :=
        execOk_mono hrow (fun fs2 _ => by
          unfold JB
          intro k hk _ _
          omega)
      have h1 := @execRow_inv_zero dps ws dir M st h0
      refine execOk_mono h1 ?_
      intro fs2 hJB
      simp only [JA]
      intro j hjv _ hjM
      have hj : j < getNumCols dps.length ws 0 * ws :=
        k_lt_cols_mul_ws hws hjv
      exact hJB j hj hjv hjM
    | succ r' =>
      have h0 : execOk st (fun fs2 => JA dps dir M fs2 (r' + 1) 0 ∧
          JB dps dir M fs2 (r' + 1) 0) :=
        execOk_mono hrow (fun fs2 hA => ⟨hA, by
          unfold JB
          intro k hk _ _
          omega⟩)
      have h1 := @execRow_inv_succ dps ws dir M r' st h0
      refine execOk_mono h1 ?_
      intro fs2 hJ
      simp only [JA]
      intro j hjv _ hjM
      have hj : j < getNumCols dps.length ws (r' + 1) * ws :=
        k_lt_cols_mul_ws hws hjv
      exact hJ.2 j hj hjv hjM
  · refine ⟨fun h => MergeResult.noConfusion h, ?_⟩
    intro fs2 hfs2
    simp only [JA]

/-- C10: the output-path function ignores its row argument (a node's
canonical path depends only on its batch range); a row-`r` node (`r > 0`)
whose second child is void has an output path identical to its sole input
path; and under the scheduler's bottom-up execution the assertion in
`merge_partial` that at least two input paths exist whenever the output
file is absent never fails, from any starting file system. -/
theorem claim_C10 (dps : List (List Char)) (ws : Nat) (dir : List Char)
    (hnb : 1 ≤ dps.length) (hws : 1 ≤ ws) :
    (∀ row row' rng, batchRangeToIndexPath dir dps.length row rng =
      batchRangeToIndexPath dir dps.length row' rng) ∧
    (∀ row col rank pm p,
      getPartialIndexPathMap dps ws dir row col rank = some pm →
      pm.inputs = .indexes [p] → pm.output_index_path = some p) ∧
    (∀ fs, runAdd dps ws dir fs ≠ .assertFail) := by
  refine ⟨?_, ?_, ?_⟩
  · intro row row' rng
    cases rng <;> rfl
  · intro row col rank pm p hm hps
    have hnonvoid : ¬ dps.length ≤ batchId0 ws row col rank := by
      intro hv
      rw [pathMap_none_iff.mpr hv] at hm
      exact Option.noConfusion hm
    cases row with
    | zero =>
      exfalso
      have hlt : rank + col * ws < dps.length := by
        unfold batchId0 at hnonvoid
        simpa using hnonvoid
      rw [pathMap_eq_zero hlt] at hm
      have hpm := Option.some_inj.mp hm
      rw [← hpm] at hps
      exact PathMapInputs.noConfusion hps
    | succ r =>
      have hlt : 2 ^ (r + 1) * (rank + col * ws) < dps.length := by
        unfold batchId0 at hnonvoid
        omega
      rw [pathMap_eq_succ hlt] at hm
      have hpm := Option.some_inj.mp hm
      by_cases hc : 2 ^ r * (2 * (rank + col * ws) + 1) < dps.length
      · exfalso
        rw [if_pos hc] at hpm
        rw [← hpm] at hps
        have := (PathMapInputs.indexes.injEq _ _ ▸ hps)
        exact List.noConfusion (List.cons.injEq _ _ _ _ ▸ this).2
      · rw [if_neg hc] at hpm
        rw [← hpm] at hps ⊢
        have hsingle :=
          @nodePath_singleton_eq dir dps.length r (rank + col * ws) hlt (by omega)
        have hlist := (PathMapInputs.indexes.injEq _ _ ▸ hps)
        have hp : p = nodePath dir dps.length r (2 * (rank + col * ws)) :=
          ((List.cons.injEq _ _ _ _ ▸ hlist).1).symm
        rw [hp, ← hsingle]
  · intro fs
    unfold runAdd
    exact execAll_no_assert dps ws dir hws _ fs _

/-- Witness for C10 at `num_batches = 5`, `world_size = 2`. -/
theorem claim_C10_witness :
    (∀ row row' rng, batchRangeToIndexPath dirD dps5.length row rng =
      batchRangeToIndexPath dirD dps5.length row' rng) ∧
    (∀ row col rank pm p,
      getPartialIndexPathMap dps5 2 dirD row col rank = some pm →
      pm.inputs = .indexes [p] → pm.output_index_path = some p) ∧
    (∀ fs, runAdd dps5 2 dirD fs ≠ .assertFail) :=
  claim_C10 dps5 2 dirD (by decide) (by decide)

/-- Witness for C8: the two-input merge of the first two leaf indexes. -/
theorem claim_C8_witness :
    (2 : Nat) = (leafIndex 0).ntotal + (leafIndex 1).ntotal ∧
    ([(0, 0), (1, 1)] : List (Nat × Nat)) = (leafIndex 0).entries ++
      (leafIndex 1).entries.map
        (fun e => ((leafIndex 0).ntotal + e.1, e.2)) := by
  have h := claim_C8.1 (leafIndex 0) (leafIndex 1) ⟨2, [(0, 0), (1, 1)]⟩
    (by decide)
  exact ⟨h.1, h.2⟩
